import Mathlib

/-!
# Verification of diff-match-patch-unicode against its specification

This file gives a shallow embedding, in Lean 4, of the core of the
`diff-match-patch-unicode` library (a TypeScript port of Google's
diff-match-patch with a Unicode-aware segmentation layer), and proves or
refutes a list of claims made by the library's natural-language
specification.

Modelling conventions:
* A JavaScript string is a list of UTF-16 code units, `JStr := List Nat`.
  All string primitives (`substring`, `charAt`, `indexOf`, `split`,
  `String.fromCharCode`, …) are translated with their exact JavaScript
  semantics (clamping, `-1` sentinels, and so on).
* JavaScript numbers appearing in the translated code are integers in all
  reachable states; they are modelled as `Int` where they can go negative
  and as `Nat` where the source keeps them non-negative.
* In-place array mutation with pointer arithmetic is translated to explicit
  state passing: a processed prefix plus the remaining suffix, with the
  loop-carried mutable variables of the source as extra arguments.
* The only time-dependent behaviour in the library is the wall-clock
  deadline consulted by the bisection loop and the recursion of
  `diff_main`.  Both are modelled by a single `fuel : Nat` argument:
  `fuel = 0` corresponds to "the deadline has passed", and each recursive
  `diff_main` call burns one unit.  Theorems quantify over all fuel values,
  so they cover both the timed-out and the untimed behaviour.
-/

set_option maxHeartbeats 1000000
set_option maxRecDepth 4000

namespace DMPU

/-- A JavaScript string: a list of UTF-16 code units. -/
abbrev JStr := List Nat

/-- JavaScript `String.prototype.substring(a, b)`: clamps both indices into
`[0, length]` and swaps them when `a > b`. -/
def jsubstring (s : JStr) (a b : Int) : JStr :=
  let len : Int := s.length
  let a' := (max 0 (min a len)).toNat
  let b' := (max 0 (min b len)).toNat
  let lo := min a' b'
  let hi := max a' b'
  (s.take hi).drop lo

/-- JavaScript `s.substring(a)` (to the end of the string). -/
def jsubstringFrom (s : JStr) (a : Int) : JStr :=
  jsubstring s a s.length

/-- JavaScript `String.prototype.charAt`: a one-unit string, or the empty
string when the index is out of range. -/
def jcharAt (s : JStr) (i : Int) : JStr :=
  if h : 0 ≤ i ∧ i.toNat < s.length then [s.get ⟨i.toNat, h.2⟩] else []

/-- First index at which `pat` occurs in `s` at or after position `start`
(already clamped to a `Nat`), or `-1`.  Helper for `jindexOf`; the `fuel`
argument only drives the recursion, `s.length + 1` always suffices. -/
def jindexOfGo (s pat : JStr) : Nat → Nat → Int
  | 0, _ => -1
  | fuel + 1, start =>
    if start + pat.length ≤ s.length then
      if (s.drop start).take pat.length = pat then (start : Int)
      else jindexOfGo s pat fuel (start + 1)
    else -1

/-- JavaScript `String.prototype.indexOf(pat, from)`. -/
def jindexOf (s pat : JStr) (from_ : Int) : Int :=
  jindexOfGo s pat (s.length + 1) (max 0 (min from_ s.length)).toNat

/-- Largest index `≤ start` at which `pat` occurs in `s`, or `-1`.
Helper for `jlastIndexOf`. -/
def jlastIndexOfAux (s pat : JStr) (start : Nat) : Int :=
  if (s.drop start).take pat.length = pat ∧ start + pat.length ≤ s.length then
    (start : Int)
  else
    match start with
    | 0 => -1
    | n + 1 => jlastIndexOfAux s pat n

/-- JavaScript `String.prototype.lastIndexOf(pat, from)`. -/
def jlastIndexOf (s pat : JStr) (from_ : Int) : Int :=
  jlastIndexOfAux s pat (max 0 (min from_ s.length)).toNat

/-- JavaScript `String.fromCharCode`: truncates to an unsigned 16-bit unit. -/
def jfromCharCode (n : Nat) : JStr := [n % 65536]

/-- The three diff operations.  In the source these are the numbers `-1`
(Delete), `1` (Insert) and `0` (Equal); only (dis)equality of operations is
ever used by the algorithms, plus the fixed numeric identities recorded by
`opVal`. -/
inductive Op : Type where
  | del : Op
  | ins : Op
  | eq : Op
deriving DecidableEq, Repr

/-- The numeric identity of each operation (`DiffOperation` in the source). -/
def opVal : Op → Int
  | .del => -1
  | .ins => 1
  | .eq => 0

/-- A diff record: the pair `(operation, text)` (class `Diff` in the source). -/
abbrev Diff := Op × JStr

/-- `diff_text1`: source text of a diff (all equalities and deletions). -/
def diff_text1 (diffs : List Diff) : JStr :=
  ((diffs.filter (fun d => d.1 ≠ Op.ins)).map (fun d => d.2)).flatten

/-- One patch object (class `Patch` in the source).  `start1`/`start2` are
`null` until assigned, hence the `Option`. -/
structure Patch : Type where
  diffs : List Diff := []
  start1 : Option Int := none
  start2 : Option Int := none
  length1 : Int := 0
  length2 : Int := 0
deriving DecidableEq, Repr

/-- Decimal digits (as code units) of a natural number; helper of `natDec`.
The `fuel` argument only drives the recursion; `n` itself always suffices. -/
def natDecGo : Nat → Nat → JStr → JStr
  | 0, n, acc => (48 + n % 10) :: acc
  | fuel + 1, n, acc =>
    if n < 10 then (48 + n) :: acc
    else natDecGo fuel (n / 10) ((48 + n % 10) :: acc)

/-- The decimal rendering of a natural number, as JS code units. -/
def natDec (n : Nat) : JStr := natDecGo n n []

/-- The JS rendering of an integer (used for number-to-string coercion). -/
def intDec (i : Int) : JStr :=
  if i < 0 then 45 :: natDec (-i).toNat else natDec i.toNat

/-- JS string coercion of a "number or null" field (null prints `"null"`). -/
def optIntDec : Option Int → JStr
  | none => [110, 117, 108, 108]
  | some i => intDec i

/-- Shorthand: code units of an ASCII literal given as a Lean string
(used only to write ASCII constants of the translation readably). -/
def asc (s : String) : JStr := s.data.map Char.toNat

/-! ## `encodeURI` / `decodeURI`

The patch and delta serializers escape text with JavaScript's `encodeURI`
and reverse it with `decodeURI`; both are translated here including their
treatment of lone surrogates (a `URIError`, modelled as `none`) and
`decodeURI`'s refusal to decode escapes of URI-reserved characters. -/

/-- Code units left unescaped by `encodeURI`:
`A–Z a–z 0–9  ; / ? : @ & = + $ , - _ . ! ~ * ' ( ) #`. -/
def uriUnescaped (c : Nat) : Prop :=
  (48 ≤ c ∧ c ≤ 57) ∨ (65 ≤ c ∧ c ≤ 90) ∨ (97 ≤ c ∧ c ≤ 122) ∨
    c ∈ [59, 47, 63, 58, 64, 38, 61, 43, 36, 44,
         45, 95, 46, 33, 126, 42, 39, 40, 41, 35]

instance (c : Nat) : Decidable (uriUnescaped c) := by
  unfold uriUnescaped; infer_instance

/-- Code units whose escapes `decodeURI` leaves untouched:
`; / ? : @ & = + $ , #`. -/
def uriReserved (c : Nat) : Prop :=
  c ∈ [59, 47, 63, 58, 64, 38, 61, 43, 36, 44, 35]

instance (c : Nat) : Decidable (uriReserved c) := by
  unfold uriReserved; infer_instance

/-- The uppercase hex digit for a value `< 16`. -/
def hexDigU (n : Nat) : Nat := if n < 10 then 48 + n else 55 + n

/-- The value of a hex digit code unit (either case), if it is one. -/
def hexVal (c : Nat) : Option Nat :=
  if 48 ≤ c ∧ c ≤ 57 then some (c - 48)
  else if 65 ≤ c ∧ c ≤ 70 then some (c - 55)
  else if 97 ≤ c ∧ c ≤ 102 then some (c - 87)
  else none

/-- The UTF-8 octets of a Unicode code point. -/
def utf8Bytes (v : Nat) : List Nat :=
  if v < 0x80 then [v]
  else if v < 0x800 then [0xC0 + v / 64, 0x80 + v % 64]
  else if v < 0x10000 then [0xE0 + v / 4096, 0x80 + v / 64 % 64, 0x80 + v % 64]
  else [0xF0 + v / 262144, 0x80 + v / 4096 % 64, 0x80 + v / 64 % 64, 0x80 + v % 64]

/-- The two hex digits of one octet's escape. -/
def escTail (b : Nat) : JStr := [hexDigU (b / 16), hexDigU (b % 16)]

/-- `%XX` escape (uppercase hex) of one octet. -/
def escByte (b : Nat) : JStr := 37 :: escTail b

/-- `encodeURI`.  `none` models the `URIError` thrown on a lone surrogate. -/
def encodeURI : JStr → Option JStr
  | [] => some []
  | c :: rest =>
    if uriUnescaped c then (encodeURI rest).map (c :: ·)
    else if 0xD800 ≤ c ∧ c ≤ 0xDBFF then
      match rest with
      | [] => none
      | c2 :: rest2 =>
        if 0xDC00 ≤ c2 ∧ c2 ≤ 0xDFFF then
          (encodeURI rest2).map
            (((utf8Bytes ((c - 0xD800) * 1024 + (c2 - 0xDC00) + 0x10000)).map
              escByte).flatten ++ ·)
        else none
    else if 0xDC00 ≤ c ∧ c ≤ 0xDFFF then none
    else (encodeURI rest).map (((utf8Bytes c).map escByte).flatten ++ ·)

/-- The UTF-16 code units of a code point (surrogate pair when supplementary). -/
def utf16Units (v : Nat) : JStr :=
  if v < 0x10000 then [v]
  else [(v - 0x10000) / 1024 + 0xD800, (v - 0x10000) % 1024 + 0xDC00]

/-- Two hex digits at the head of a string: their byte value and the rest. -/
def hex2 (s : JStr) : Option (Nat × JStr) :=
  match s with
  | h1 :: h2 :: rest =>
    match hexVal h1, hexVal h2 with
    | some v1, some v2 => some (v1 * 16 + v2, rest)
    | _, _ => none
  | _ => none

/-- A literal `%XX` escape at the head of a string. -/
def escTriple (s : JStr) : Option (Nat × JStr) :=
  match s with
  | 37 :: rest => hex2 rest
  | _ => none

/-- Decoding of one percent-escape group of `decodeURI` (the input starts
just after the leading `%`): yields the decoded units — or the untouched
escape for a URI-reserved character — and the remaining input. -/
def decodePercent (s : JStr) : Option (JStr × JStr) :=
  match hex2 s with
  | none => none
  | some (b, rest2) =>
    if b < 0x80 then
      if uriReserved b then some (37 :: s.take 2, rest2)
      else some ([b], rest2)
    else if 0xC2 ≤ b ∧ b ≤ 0xDF then
      match escTriple rest2 with
      | none => none
      | some (b2, rest3) =>
        if 0x80 ≤ b2 ∧ b2 ≤ 0xBF then
          some ([(b - 0xC0) * 64 + (b2 - 0x80)], rest3)
        else none
    else if 0xE0 ≤ b ∧ b ≤ 0xEF then
      match escTriple rest2 with
      | none => none
      | some (b2, rest3) =>
        match escTriple rest3 with
        | none => none
        | some (b3, rest4) =>
          let v := (b - 0xE0) * 4096 + (b2 - 0x80) * 64 + (b3 - 0x80)
          if 0x80 ≤ b2 ∧ b2 ≤ 0xBF ∧ 0x80 ≤ b3 ∧ b3 ≤ 0xBF ∧
              0x800 ≤ v ∧ ¬(0xD800 ≤ v ∧ v ≤ 0xDFFF) then
            some ([v], rest4)
          else none
    else if 0xF0 ≤ b ∧ b ≤ 0xF4 then
      match escTriple rest2 with
      | none => none
      | some (b2, rest3) =>
        match escTriple rest3 with
        | none => none
        | some (b3, rest4) =>
          match escTriple rest4 with
          | none => none
          | some (b4, rest5) =>
            let v := (b - 0xF0) * 262144 + (b2 - 0x80) * 4096 +
              (b3 - 0x80) * 64 + (b4 - 0x80)
            if 0x80 ≤ b2 ∧ b2 ≤ 0xBF ∧ 0x80 ≤ b3 ∧ b3 ≤ 0xBF ∧
                0x80 ≤ b4 ∧ b4 ≤ 0xBF ∧ 0x10000 ≤ v ∧ v ≤ 0x10FFFF then
              some (utf16Units v, rest5)
            else none
    else none

/-- The scan of `decodeURI`.  The `fuel` only drives the recursion; each
step consumes at least one unit, so `s.length` always suffices. -/
def decodeURIGo : Nat → JStr → Option JStr
  | _, [] => some []
  | 0, _ :: _ => none
  | fuel + 1, 37 :: rest =>
    match decodePercent rest with
    | none => none
    | some (chunk, rest2) => (decodeURIGo fuel rest2).map (chunk ++ ·)
  | fuel + 1, c :: rest => (decodeURIGo fuel rest).map (c :: ·)

/-- `decodeURI`.  `none` models the `URIError` thrown on a malformed escape
sequence; escapes of URI-reserved characters are passed through verbatim. -/
def decodeURI (s : JStr) : Option JStr := decodeURIGo s.length s

/-- The global `.replace(/%20/g, ' ')` used by the serializers (escaped
spaces are rendered as literal spaces). -/
def replaceP20 : JStr → JStr
  | 37 :: 50 :: 48 :: rest => 32 :: replaceP20 rest
  | c :: rest => c :: replaceP20 rest
  | [] => []

/-! ## `Patch.toString` and `patch_toText` -/

/-- The `-` side coordinates of the patch header, exactly as built by
`Patch.toString` (note the raw, unincremented `start1` when `length1 = 0`,
with `null` coerced to the string `"null"`). -/
def patchCoords1 (p : Patch) : JStr :=
  if p.length1 = 0 then optIntDec p.start1 ++ asc ",0"
  else if p.length1 = 1 then intDec (p.start1.getD 0 + 1)
  else intDec (p.start1.getD 0 + 1) ++ asc "," ++ intDec p.length1

/-- The `+` side coordinates of the patch header. -/
def patchCoords2 (p : Patch) : JStr :=
  if p.length2 = 0 then optIntDec p.start2 ++ asc ",0"
  else if p.length2 = 1 then intDec (p.start2.getD 0 + 1)
  else intDec (p.start2.getD 0 + 1) ++ asc "," ++ intDec p.length2

/-- The header line (including trailing newline) built by `Patch.toString`:
`'@@ -' + coords1 + ' +' + coords2 + ' @@\n'`. -/
def patchHeader (p : Patch) : JStr :=
  asc "@@ -" ++ patchCoords1 p ++ asc " +" ++ patchCoords2 p ++ asc " @@" ++ [10]

/-- The sign character of one body line. -/
def opSign : Op → Nat
  | .ins => 43   -- '+'
  | .del => 45   -- '-'
  | .eq => 32    -- ' '

/-- One body line of `Patch.toString`: sign, percent-escaped text, newline.
`none` when `encodeURI` throws on the text. -/
def patchBodyLine (d : Diff) : Option JStr :=
  (encodeURI d.2).map (fun e => opSign d.1 :: e ++ [10])

/-- `Patch.toString`: header then one line per diff, with `%20` finally
rewritten to a literal space.  `none` models the `URIError` propagating. -/
def patchToString (p : Patch) : Option JStr :=
  ((p.diffs.mapM patchBodyLine).map
    (fun body => replaceP20 (patchHeader p ++ body.flatten)))

/-- `patch_toText`: concatenation of the patches' string renderings. -/
def patch_toText (patches : List Patch) : Option JStr :=
  ((patches.mapM patchToString).map List.flatten)

/-! ## `SegmentCodec` -/

/-- Lookup in an insertion-ordered association list (a JS `Map`). -/
def alookup (m : List (JStr × JStr)) (k : JStr) : Option JStr :=
  match m with
  | [] => none
  | (k', v) :: rest => if k' = k then some v else alookup rest k

/-- The state of a `SegmentCodec`: allocation counter and the two `Map`s. -/
structure CodecState : Type where
  n : Nat := 0
  encoded : List (JStr × JStr) := []
  decoded : List (JStr × JStr) := []
deriving DecidableEq, Repr

/-- The `for … of` loop of `SegmentCodec.encode`.  A fresh segment allocates
the next unit; if that allocation reaches `max` the segment and the entire
rest of the iterator are joined into one catch-all segment bound to that
unit and the loop breaks. -/
def encodeGo (st : CodecState) (max : Nat) : List JStr → JStr × CodecState
  | [] => ([], st)
  | seg :: rest =>
    match alookup st.encoded seg with
    | some u =>
      let r := encodeGo st max rest
      (u ++ r.1, r.2)
    | none =>
      let n' := st.n + 1
      let ch := jfromCharCode n'
      if n' = max then
        let s := (seg :: rest).flatten
        (ch, { n := n', encoded := st.encoded ++ [(s, ch)],
               decoded := st.decoded ++ [(ch, s)] })
      else
        -- the source re-reads `encoded.get(segment)!` just after setting it;
        -- that read yields `ch`
        let st' : CodecState :=
          { n := n', encoded := st.encoded ++ [(seg, ch)],
            decoded := st.decoded ++ [(ch, seg)] }
        let r := encodeGo st' max rest
        (ch ++ r.1, r.2)

/-- `SegmentCodec.encode`; `none` models the `unreachable()` assertion that
fires when the codec is already exhausted on entry. -/
def SegmentCodec.encode (st : CodecState) (segments : List JStr) (max : Nat) :
    Option (JStr × CodecState) :=
  if st.n ≥ max then none else some (encodeGo st max segments)

/-- `[...text]`: JavaScript string iteration by code point (surrogate pairs
group into one element; lone surrogates stand alone). -/
def codePointsGo : Nat → JStr → List JStr
  | _, [] => []
  | 0, c :: _ => [[c]]
  | fuel + 1, c :: rest =>
    if 0xD800 ≤ c ∧ c ≤ 0xDBFF then
      match rest with
      | c2 :: rest2 =>
        if 0xDC00 ≤ c2 ∧ c2 ≤ 0xDFFF then [c, c2] :: codePointsGo fuel rest2
        else [c] :: codePointsGo fuel (c2 :: rest2)
      | [] => [[c]]
    else [c] :: codePointsGo fuel rest

/-- `[...text]` continued: the `fuel` only drives the recursion, `text.length`
always suffices since every step consumes at least one unit. -/
def codePoints (s : JStr) : List JStr := codePointsGo s.length s

/-- `SegmentCodec.decode`: per-code-point lookup with `?? ''` fallback. -/
def SegmentCodec.decode (st : CodecState) (text : JStr) : List JStr :=
  (codePoints text).map (fun cp => (alookup st.decoded cp).getD [])

/-- Reachable codec states: the decode map's keys are exactly the units
`fromCharCode 1 … fromCharCode n`, in allocation order. -/
def codecKeys (st : CodecState) : Prop :=
  st.decoded.map Prod.fst = (List.range' 1 st.n).map jfromCharCode

instance (st : CodecState) : Decidable (codecKeys st) := by
  unfold codecKeys; infer_instance

/-! ## Rendering formats claimed by the specification (claim C6) -/

/-- One header coordinate as claim C6 words it: 1-based offset in every
case, suffix omitted when the length is 1, `,0` appended when it is 0. -/
def claimCoordC6 (st : Option Int) (len : Int) : JStr :=
  if len = 0 then intDec (st.getD 0 + 1) ++ asc ",0"
  else if len = 1 then intDec (st.getD 0 + 1)
  else intDec (st.getD 0 + 1) ++ asc "," ++ intDec len

/-- The header line claim C6 describes. -/
def claimHeaderC6 (p : Patch) : JStr :=
  asc "@@ -" ++ claimCoordC6 p.start1 p.length1 ++ asc " +" ++
    claimCoordC6 p.start2 p.length2 ++ asc " @@" ++ [10]

/-- One header coordinate as the amended claim words it: when the length is
0 the raw (0-based, `"null"` when unset) start followed by `,0`; when the
length is 1 the 1-based offset `start+1` alone; otherwise `start+1,length`. -/
def amendCoordC6 (st : Option Int) (len : Int) : JStr :=
  if len = 0 then optIntDec st ++ asc ",0"
  else if len = 1 then intDec (st.getD 0 + 1)
  else intDec (st.getD 0 + 1) ++ asc "," ++ intDec len

/-- The header line of the amended claim C6. -/
def amendHeaderC6 (p : Patch) : JStr :=
  asc "@@ -" ++ amendCoordC6 p.start1 p.length1 ++ asc " +" ++
    amendCoordC6 p.start2 p.length2 ++ asc " @@" ++ [10]

/-- Concrete patch refuting claim C6 as stated: a zero-length source range
starting at offset 0 (an insertion at the very start of the text). -/
def pC6 : Patch :=
  { diffs := [(Op.ins, [97])], start1 := some 0, start2 := some 0,
    length1 := 0, length2 := 1 }

/-- The codec state produced by the C8 witness run (units 1 ↦ `"A"`,
2 ↦ the catch-all `"BC"`). -/
def stC8 : CodecState :=
  { n := 2, encoded := [([65], [1]), ([66, 67], [2])],
    decoded := [([1], [65]), ([2], [66, 67])] }

/-! ## `patch_fromText` -/

/-- JavaScript `split('\n')`. -/
def splitNL : JStr → List JStr
  | [] => [[]]
  | 10 :: rest => [] :: splitNL rest
  | c :: rest =>
    match splitNL rest with
    | [] => [[c]]
    | l :: ls => (c :: l) :: ls

/-- Digit code unit (`\d`). -/
def isDig (c : Nat) : Bool := decide (48 ≤ c ∧ c ≤ 57)

/-- `parseInt(s, 10)` on an all-digit string. -/
def parseDigits (l : JStr) : Nat := l.foldl (fun a c => a * 10 + (c - 48)) 0

/-- Matching of one line against the patch-header regular expression
`^@@ -(\d+),?(\d*) \+(\d+),?(\d*) @@$`, returning the four digit groups.
All committed tokens of the pattern are greedy over disjoint character
classes, so this direct scan is equivalent to the backtracking regex. -/
def headerMatch (s : JStr) : Option (JStr × JStr × JStr × JStr) :=
  if s.take 4 = [64, 64, 32, 45] then
    let r0 := s.drop 4
    let d1 := r0.takeWhile isDig
    let r1 := r0.dropWhile isDig
    if d1 = [] then none
    else
      let r2 := if r1.take 1 = [44] then r1.drop 1 else r1
      let d2 := r2.takeWhile isDig
      let r3 := r2.dropWhile isDig
      if r3.take 2 = [32, 43] then
        let r4 := r3.drop 2
        let d3 := r4.takeWhile isDig
        let r5 := r4.dropWhile isDig
        if d3 = [] then none
        else
          let r6 := if r5.take 1 = [44] then r5.drop 1 else r5
          let d4 := r6.takeWhile isDig
          let r7 := r6.dropWhile isDig
          if r7 = [32, 64, 64] then some (d1, d2, d3, d4) else none
      else none
  else none

/-- One `(start, length)` pair from its two header digit groups, exactly
as `patch_fromText` assigns them (note the string comparisons of the
optional-length group against `''` and `'0'`). -/
def coordOfGroups (d1 d2 : JStr) : Int × Int :=
  if d2 = [] then ((parseDigits d1 : Int) - 1, 1)
  else if d2 = [48] then ((parseDigits d1 : Int), 0)
  else ((parseDigits d1 : Int) - 1, (parseDigits d2 : Int))

/-- The patch built from the four header groups by `patch_fromText`. -/
def patchOfHeader (g : JStr × JStr × JStr × JStr) : Patch :=
  let p1 := coordOfGroups g.1 g.2.1
  let p2 := coordOfGroups g.2.2.1 g.2.2.2
  { diffs := []
    start1 := some p1.1
    start2 := some p2.1
    length1 := p1.2
    length2 := p2.2 }

/-- The inner line loop of `patch_fromText`: consume body lines into the
current patch's diffs until the next `@` line (left unconsumed) or the end;
`none` models the thrown errors (illegal escape / invalid patch mode). -/
def patchBodyGo : List JStr → List Diff → Option (List Diff × List JStr)
  | [], acc => some (acc, [])
  | l :: rest, acc =>
    let sign := l.take 1
    match decodeURI (jsubstringFrom l 1) with
    | none => none
    | some line =>
      if sign = [45] then patchBodyGo rest (acc ++ [(Op.del, line)])
      else if sign = [43] then patchBodyGo rest (acc ++ [(Op.ins, line)])
      else if sign = [32] then patchBodyGo rest (acc ++ [(Op.eq, line)])
      else if sign = [64] then some (acc, l :: rest)
      else if sign = [] then patchBodyGo rest acc
      else none

/-- The outer loop of `patch_fromText`: each unconsumed line must be a
patch header, then its body is consumed.  The `fuel` only drives the
recursion; each iteration consumes at least the header line, so
`lines.length + 1` always suffices. -/
def fromTextGo : Nat → List JStr → Option (List Patch)
  | _, [] => some []
  | 0, _ :: _ => none
  | fuel + 1, l :: rest =>
    match headerMatch l with
    | none => none
    | some g =>
      match patchBodyGo rest [] with
      | none => none
      | some (ds, remaining) =>
        match fromTextGo fuel remaining with
        | none => none
        | some ps => some ({ patchOfHeader g with diffs := ds } :: ps)

/-- `patch_fromText`; `none` models the thrown format errors.  The empty
string is returned as an empty patch list before any parsing. -/
def patch_fromText (t : JStr) : Option (List Patch) :=
  if t = [] then some []
  else fromTextGo ((splitNL t).length + 1) (splitNL t)

/-- A line acceptable to `patch_fromText`: blank, or starting with `+`,
`-` or space, or an `@` line matching the header pattern (used to state
the amended claim C7). -/
def goodLine (l : JStr) : Prop :=
  l = [] ∨ l.take 1 = [43] ∨ l.take 1 = [45] ∨ l.take 1 = [32] ∨
    (l.take 1 = [64] ∧ (headerMatch l).isSome)

instance (l : JStr) : Decidable (goodLine l) := by
  unfold goodLine; infer_instance

/-! ## Patch construction (`patch_addContext_`, `patch_make`) -/

/-- `Match_MaxBits` (number of bits in an int). -/
def Match_MaxBits : Nat := 32

/-- `Patch_Margin` (chunk size for context length). -/
def Patch_Margin : Nat := 4

/-- The context-growing loop of `patch_addContext_`.  The `fuel` only
drives the recursion: the pattern grows by at least one unit per round
while shorter than `Match_MaxBits - 2 * Patch_Margin`, or becomes the whole
text (hence unique), so `Match_MaxBits + text.length` always suffices. -/
def addContextLoop (text : JStr) (start2 len1 : Int) :
    Nat → JStr → Nat → Nat
  | 0, _, padding => padding
  | fuel + 1, pattern, padding =>
    if jindexOf text pattern 0 ≠ jlastIndexOf text pattern text.length ∧
        pattern.length < Match_MaxBits - Patch_Margin - Patch_Margin then
      let padding' := padding + Patch_Margin
      let pattern' := jsubstring text (start2 - padding')
        (start2 + len1 + padding')
      addContextLoop text start2 len1 fuel pattern' padding'
    else padding

/-- `patch_addContext_`: grow the context around a patch until the pattern
is unique in `text` (or too long for the matcher), then attach the prefix
and suffix context and fix up offsets and lengths.  `none` models the
`patch not initialized` error thrown on a `null` `start2`. -/
def patch_addContext_ (patch : Patch) (text : JStr) : Option Patch :=
  if text.length = 0 then some patch
  else
    match patch.start2 with
    | none => none
    | some start2 =>
      let pattern0 := jsubstring text start2 (start2 + patch.length1)
      let padding := addContextLoop text start2 patch.length1
        (Match_MaxBits + text.length) pattern0 0
      let padding' := padding + Patch_Margin
      let pre := jsubstring text (start2 - (padding' : Int)) start2
      let suf := jsubstring text (start2 + patch.length1)
        (start2 + patch.length1 + (padding' : Int))
      let diffs1 := if pre ≠ [] then (Op.eq, pre) :: patch.diffs
        else patch.diffs
      let diffs2 := if suf ≠ [] then diffs1 ++ [(Op.eq, suf)] else diffs1
      some { diffs := diffs2
             start1 := some (patch.start1.getD 0 - pre.length)
             start2 := some (start2 - pre.length)
             length1 := patch.length1 + pre.length + suf.length
             length2 := patch.length2 + pre.length + suf.length }

/-- The running state of the `patch_make` loop: finished patches, the
patch being accumulated, the char counts into source and destination, and
the prepatch and postpatch texts maintained for context extraction. -/
structure MakeState : Type where
  patches : List Patch
  patch : Patch
  cc1 : Nat
  cc2 : Nat
  prepatch : JStr
  postpatch : JStr
deriving DecidableEq, Repr

/-- One step of the `patch_make` loop, given the diff `d` and whether more
diffs follow (`diffs.length !== x + 1` in the source). -/
def patch_makeStep (d : Diff) (notLast : Bool) (st : MakeState) :
    Option MakeState :=
  -- a new patch starts at the first edit record
  let st := if st.patch.diffs = [] ∧ d.1 ≠ Op.eq then
      { st with
        patch := { st.patch with
          start1 := some (st.cc1 : Int)
          start2 := some (st.cc2 : Int) } }
    else st
  let dlen := d.2.length
  match d.1 with
  | Op.ins => some
      { st with
        patch := { st.patch with
          diffs := st.patch.diffs ++ [d]
          length2 := st.patch.length2 + dlen }
        postpatch := st.postpatch.take st.cc2 ++ d.2 ++
          st.postpatch.drop st.cc2
        cc2 := st.cc2 + dlen }
  | Op.del => some
      { st with
        patch := { st.patch with
          diffs := st.patch.diffs ++ [d]
          length1 := st.patch.length1 + dlen }
        postpatch := st.postpatch.take st.cc2 ++
          st.postpatch.drop (st.cc2 + dlen)
        cc1 := st.cc1 + dlen }
  | Op.eq =>
    if dlen ≤ 2 * Patch_Margin ∧ st.patch.diffs ≠ [] ∧ notLast then
      -- small equality inside a patch
      some { st with
        patch := { st.patch with
          diffs := st.patch.diffs ++ [d]
          length1 := st.patch.length1 + dlen
          length2 := st.patch.length2 + dlen }
        cc1 := st.cc1 + dlen
        cc2 := st.cc2 + dlen }
    else if 2 * Patch_Margin ≤ dlen then
      -- time for a new patch
      if st.patch.diffs ≠ [] then
        match patch_addContext_ st.patch st.prepatch with
        | none => none
        | some p' => some
            { patches := st.patches ++ [p']
              patch := {}
              cc1 := st.cc2 + dlen
              cc2 := st.cc2 + dlen
              prepatch := st.postpatch
              postpatch := st.postpatch }
      else some { st with
        cc1 := st.cc1 + dlen
        cc2 := st.cc2 + dlen }
    else some { st with
      cc1 := st.cc1 + dlen
      cc2 := st.cc2 + dlen }

/-- The `patch_make` loop over the diffs. -/
def patch_makeGo : List Diff → MakeState → Option MakeState
  | [], st => some st
  | d :: rest, st =>
    match patch_makeStep d (decide (rest ≠ [])) st with
    | none => none
    | some st' => patch_makeGo rest st'

/-- The common core of `patch_make` once `text1` and `diffs` are fixed
(all four calling conventions funnel here). -/
def patch_make_core (text1 : JStr) (diffs : List Diff) : Option (List Patch) :=
  if diffs = [] then some []
  else
    match patch_makeGo diffs
        { patches := []
          patch := {}
          cc1 := 0
          cc2 := 0
          prepatch := text1
          postpatch := text1 } with
    | none => none
    | some st =>
      if st.patch.diffs ≠ [] then
        (patch_addContext_ st.patch st.prepatch).map
          (fun p' => st.patches ++ [p'])
      else some st.patches

/-- `patch_make` calling convention 2 (`a = diffs`): `text1` is recomputed
as `diff_text1(diffs)`. -/
def patch_make2 (diffs : List Diff) : Option (List Patch) :=
  patch_make_core (diff_text1 diffs) diffs

/-- Specification-side decimal digits (big-endian), used to reason about
`natDecGo`. -/
def natDecS (n : Nat) : JStr :=
  if n < 10 then [48 + n] else natDecS (n / 10) ++ [48 + n % 10]
termination_by n
decreasing_by exact Nat.div_lt_self (by omega) (by omega)

/-- A list of actual UTF-16 code units (every unit below `2^16`); true of
every real JavaScript string, stated explicitly since the model uses
unbounded naturals. -/
def validUnits (s : JStr) : Prop := ∀ c ∈ s, c < 65536

instance (s : JStr) : Decidable (validUnits s) := by
  unfold validUnits; infer_instance

/-- The header line of `Patch.toString` without its trailing newline. -/
def patchHeadLine (p : Patch) : JStr :=
  asc "@@ -" ++ patchCoords1 p ++ asc " +" ++ patchCoords2 p ++ asc " @@"

/-- The well-formedness that `patch_make` guarantees of every patch it
returns: both starts assigned and non-negative, both lengths non-negative,
and every diff text made of actual UTF-16 units. -/
def patchRT (p : Patch) : Prop :=
  (∃ s1, p.start1 = some s1 ∧ 0 ≤ s1) ∧
  (∃ s2, p.start2 = some s2 ∧ 0 ≤ s2) ∧
  0 ≤ p.length1 ∧ 0 ≤ p.length2 ∧
  ∀ d ∈ p.diffs, validUnits d.2

/-- The loop invariant of `patch_make`: finished patches are well-formed,
the working texts and the open patch's diffs hold genuine UTF-16 units,
the open patch's lengths are non-negative, the char counts agree while no
patch is open, and an open patch's two starts hold the same non-negative
position. -/
def mkInv (st : MakeState) : Prop :=
  (∀ p ∈ st.patches, patchRT p) ∧
  validUnits st.prepatch ∧ validUnits st.postpatch ∧
  (∀ d ∈ st.patch.diffs, validUnits d.2) ∧
  0 ≤ st.patch.length1 ∧ 0 ≤ st.patch.length2 ∧
  (st.patch.diffs = [] → st.cc1 = st.cc2) ∧
  (st.patch.diffs ≠ [] → ∃ k : Int,
    st.patch.start1 = some k ∧ st.patch.start2 = some k ∧ 0 ≤ k)

/-! ## `diff_commonPrefix` / `diff_commonSuffix` and `diff_cleanupMerge` -/

/-- The binary-search loop of `diff_commonPrefix`.  The `fuel` only
drives the recursion: each round shrinks `pointermax - pointermin` by at
least one, so `pointermax + 1` from the initial call always suffices. -/
def commonPrefixGo (t1 t2 : JStr) : Nat → Nat → Nat → Nat → Nat → Nat
  | 0, _, _, pmid, _ => pmid
  | fuel + 1, pmin, pmax, pmid, pstart =>
    if pmin < pmid then
      if jsubstring t1 pstart pmid = jsubstring t2 pstart pmid then
        commonPrefixGo t1 t2 fuel pmid pmax ((pmax - pmid) / 2 + pmid) pmid
      else
        commonPrefixGo t1 t2 fuel pmin pmid ((pmid - pmin) / 2 + pmin) pstart
    else pmid

/-- `diff_commonPrefix`. -/
def diff_commonPrefixLen (t1 t2 : JStr) : Nat :=
  if t1 = [] ∨ t2 = [] ∨ jcharAt t1 0 ≠ jcharAt t2 0 then 0
  else
    commonPrefixGo t1 t2 (min t1.length t2.length + 1) 0
      (min t1.length t2.length) (min t1.length t2.length) 0

/-- The binary-search loop of `diff_commonSuffix` (same fuel argument). -/
def commonSuffixGo (t1 t2 : JStr) : Nat → Nat → Nat → Nat → Nat → Nat
  | 0, _, _, pmid, _ => pmid
  | fuel + 1, pmin, pmax, pmid, pend =>
    if pmin < pmid then
      if jsubstring t1 ((t1.length : Int) - pmid) ((t1.length : Int) - pend) =
          jsubstring t2 ((t2.length : Int) - pmid)
            ((t2.length : Int) - pend) then
        commonSuffixGo t1 t2 fuel pmid pmax ((pmax - pmid) / 2 + pmid) pmid
      else
        commonSuffixGo t1 t2 fuel pmin pmid ((pmid - pmin) / 2 + pmin) pend
    else pmid

/-- `diff_commonSuffix`. -/
def diff_commonSuffixLen (t1 t2 : JStr) : Nat :=
  if t1 = [] ∨ t2 = [] ∨
      jcharAt t1 ((t1.length : Int) - 1) ≠ jcharAt t2 ((t2.length : Int) - 1)
    then 0
  else
    commonSuffixGo t1 t2 (min t1.length t2.length + 1) 0
      (min t1.length t2.length) (min t1.length t2.length) 0

/-- The first pass of `diff_cleanupMerge`, as explicit state passing:
`done` is the array before the current accumulation segment, `seg` the
segment's untouched records, `cd`/`ci`/`td`/`ti` the loop's
`count_delete`/`count_insert`/`text_delete`/`text_insert`.  Splices are
performed against `done`; note the front splice (`diffs.splice(0, 0, …)`)
when a factored common prefix finds no preceding equality. -/
def mergeP1 (done seg : List Diff) (cd ci : Nat) (td ti : JStr) :
    List Diff → List Diff
  | [] => done ++ seg
  | (op, t) :: r =>
    match op with
    | Op.ins => mergeP1 done (seg ++ [(Op.ins, t)]) cd (ci + 1) td (ti ++ t) r
    | Op.del => mergeP1 done (seg ++ [(Op.del, t)]) (cd + 1) ci (td ++ t) ti r
    | Op.eq =>
      if 1 < cd + ci then
        if cd ≠ 0 ∧ ci ≠ 0 then
          let pl := diff_commonPrefixLen ti td
          let s1 : List Diff × JStr × JStr :=
            if pl ≠ 0 then
              (match done.getLast? with
                | some (Op.eq, pt) =>
                  done.dropLast ++ [(Op.eq, pt ++ ti.take pl)]
                | _ => (Op.eq, ti.take pl) :: done,
               ti.drop pl, td.drop pl)
            else (done, ti, td)
          let sl := diff_commonSuffixLen s1.2.1 s1.2.2
          let s2 : JStr × JStr × JStr :=
            if sl ≠ 0 then
              (s1.2.1.drop (s1.2.1.length - sl) ++ t,
               s1.2.1.take (s1.2.1.length - sl),
               s1.2.2.take (s1.2.2.length - sl))
            else (t, s1.2.1, s1.2.2)
          mergeP1 (s1.1 ++
            (if s2.2.2 ≠ [] then [(Op.del, s2.2.2)] else []) ++
            (if s2.2.1 ≠ [] then [(Op.ins, s2.2.1)] else []) ++
            [(Op.eq, s2.1)]) [] 0 0 [] [] r
        else
          mergeP1 (done ++
            (if td ≠ [] then [(Op.del, td)] else []) ++
            (if ti ≠ [] then [(Op.ins, ti)] else []) ++
            [(Op.eq, t)]) [] 0 0 [] [] r
      else
        match (done ++ seg).getLast? with
        | some (Op.eq, pt) =>
          mergeP1 ((done ++ seg).dropLast ++ [(Op.eq, pt ++ t)])
            [] 0 0 [] [] r
        | _ => mergeP1 (done ++ seg ++ [(Op.eq, t)]) [] 0 0 [] [] r

/-- Removal of the dummy entry: pop the last record if its text is
empty. -/
def mergeDropLastEmpty (l : List Diff) : List Diff :=
  match l.getLast? with
  | some (_, []) => l.dropLast
  | _ => l

/-- The second (shift) pass of `diff_cleanupMerge`: the window is the
records `diffs[pointer-1] = a`, `diffs[pointer] = b`,
`diffs[pointer+1] = head of the list argument`. -/
def mergeP2 (acc : List Diff) (a b : Diff) (changes : Bool) :
    List Diff → List Diff × Bool
  | [] => (acc ++ [a, b], changes)
  | c :: rest =>
    if a.1 = Op.eq ∧ c.1 = Op.eq then
      if jsubstringFrom b.2 ((b.2.length : Int) - a.2.length) = a.2 then
        match rest with
        | [] => (acc ++ [(b.1, a.2 ++ jsubstring b.2 0
            ((b.2.length : Int) - a.2.length)), (Op.eq, a.2 ++ c.2)], true)
        | d :: rest' =>
          mergeP2 (acc ++ [(b.1, a.2 ++ jsubstring b.2 0
            ((b.2.length : Int) - a.2.length))])
            (Op.eq, a.2 ++ c.2) d true rest'
      else if b.2.take c.2.length = c.2 then
        match rest with
        | [] => (acc ++ [(a.1, a.2 ++ c.2),
            (b.1, b.2.drop c.2.length ++ c.2)], true)
        | d :: rest' =>
          mergeP2 (acc ++ [(a.1, a.2 ++ c.2)])
            (b.1, b.2.drop c.2.length ++ c.2) d true rest'
      else mergeP2 (acc ++ [a]) b c changes rest
    else mergeP2 (acc ++ [a]) b c changes rest

/-- Entry point of the shift pass (the loop runs only when at least three
records exist). -/
def mergeP2Top (l : List Diff) : List Diff × Bool :=
  match l with
  | a :: b :: rest => mergeP2 [] a b false rest
  | _ => (l, false)

/-- `diff_cleanupMerge`.  The `fuel` bounds the self-recursion performed
when the shift pass made changes; `none` corresponds to running out of
fuel, so theorems cover every terminating run. -/
def diff_cleanupMerge : Nat → List Diff → Option (List Diff)
  | 0, _ => none
  | fuel + 1, diffs =>
    let l1 := mergeDropLastEmpty
      (mergeP1 [] [] 0 0 [] [] (diffs ++ [(Op.eq, [])]))
    let r := mergeP2Top l1
    if r.2 then diff_cleanupMerge fuel r.1 else some r.1

/-- The adjacency discipline of merged edits: never two deletes in a row,
never two inserts in a row, and never an insert immediately followed by a
delete (used to state the amended claim C5). -/
def pairOK (x y : Diff) : Prop :=
  ¬(x.1 = Op.del ∧ y.1 = Op.del) ∧ ¬(x.1 = Op.ins ∧ y.1 = Op.ins) ∧
    ¬(x.1 = Op.ins ∧ y.1 = Op.del)

instance (x y : Diff) : Decidable (pairOK x y) := by
  unfold pairOK; infer_instance

/-- The patch produced by `patch_make` from the diff
`[(eq, "x"), (del, "\uD83D")]` — its delete text is a lone lead
surrogate, so `encodeURI` throws when `patch_toText` renders it. -/
def pC3 : Patch :=
  { diffs := [(Op.eq, [120]), (Op.del, [55357])]
    start1 := some 0
    start2 := some 0
    length1 := 2
    length2 := 1 }

/-! ## `diff_commonOverlap_` -/

end DMPU

namespace DMPU

/-! # Theorems -/

/-! ## Generic helper lemmas -/

theorem replaceP20_cons_ne (c : Nat) (l : JStr) (hc : c ≠ 37) :
    replaceP20 (c :: l) = c :: replaceP20 l := by
  rw [replaceP20.eq_def]
  split
  · rename_i heq
    injection heq with h1 _
    exact absurd h1 hc
  · rename_i _ heq
    injection heq with h1 h2
    subst h1; subst h2; rfl
  · rename_i heq
    cases heq

theorem replaceP20_append_of_noPercent (a b : JStr) (h : 37 ∉ a) :
    replaceP20 (a ++ b) = a ++ replaceP20 b := by
  induction a with
  | nil => rfl
  | cons c rest ih =>
    have hc : c ≠ 37 := fun hc => h (hc ▸ List.mem_cons_self c rest)
    have hr : 37 ∉ rest := fun hr => h (List.mem_cons_of_mem c hr)
    rw [List.cons_append, replaceP20_cons_ne c _ hc, ih hr, List.cons_append]

theorem mem_natDecGo {fuel n : Nat} {acc : JStr} {c : Nat}
    (h : c ∈ natDecGo fuel n acc) : (48 ≤ c ∧ c ≤ 57) ∨ c ∈ acc := by
  induction fuel generalizing n acc with
  | zero =>
    rcases List.mem_cons.1 h with h | h
    · left; omega
    · right; exact h
  | succ fuel ih =>
    unfold natDecGo at h
    by_cases hn : n < 10
    · simp only [hn, if_pos, List.mem_cons] at h
      rcases h with h | h
      · left; omega
      · right; exact h
    · simp only [hn, if_neg, not_false_iff] at h
      rcases ih h with h' | h'
      · left; exact h'
      · rcases List.mem_cons.1 h' with h'' | h''
        · left; omega
        · right; exact h''

theorem mem_natDec {n c : Nat} (h : c ∈ natDec n) : 48 ≤ c ∧ c ≤ 57 := by
  rcases mem_natDecGo h with h' | h'
  · exact h'
  · cases h'

theorem noPercent_intDec (i : Int) : 37 ∉ intDec i := by
  intro h
  unfold intDec at h
  by_cases hi : i < 0
  · simp only [hi, if_pos, List.mem_cons] at h
    rcases h with h | h
    · omega
    · have := mem_natDec h; omega
  · simp only [hi, if_neg, not_false_iff] at h
    have := mem_natDec h; omega

theorem noPercent_optIntDec (o : Option Int) : 37 ∉ optIntDec o := by
  rcases o with _ | i
  · exact fun h => absurd h (by decide)
  · exact noPercent_intDec i

theorem noPercent_patchCoords1 (p : Patch) : 37 ∉ patchCoords1 p := by
  intro h
  unfold patchCoords1 at h
  split at h
  · rcases List.mem_append.1 h with h' | h'
    · exact noPercent_optIntDec _ h'
    · exact absurd h' (by decide)
  · split at h
    · exact noPercent_intDec _ h
    · rcases List.mem_append.1 h with h' | h'
      · rcases List.mem_append.1 h' with h'' | h''
        · exact noPercent_intDec _ h''
        · exact absurd h'' (by decide)
      · exact noPercent_intDec _ h'

theorem noPercent_patchCoords2 (p : Patch) : 37 ∉ patchCoords2 p := by
  intro h
  unfold patchCoords2 at h
  split at h
  · rcases List.mem_append.1 h with h' | h'
    · exact noPercent_optIntDec _ h'
    · exact absurd h' (by decide)
  · split at h
    · exact noPercent_intDec _ h
    · rcases List.mem_append.1 h with h' | h'
      · rcases List.mem_append.1 h' with h'' | h''
        · exact noPercent_intDec _ h''
        · exact absurd h'' (by decide)
      · exact noPercent_intDec _ h'

theorem noPercent_patchHeader (p : Patch) : 37 ∉ patchHeader p := by
  intro h
  unfold patchHeader at h
  simp only [List.append_assoc, List.mem_append] at h
  rcases h with h | h | h | h | h | h
  · exact absurd h (by decide)
  · exact noPercent_patchCoords1 p h
  · exact absurd h (by decide)
  · exact noPercent_patchCoords2 p h
  · exact absurd h (by decide)
  · exact absurd h (by decide)

theorem patchCoords1_eq_amend (p : Patch) :
    patchCoords1 p = amendCoordC6 p.start1 p.length1 := rfl

theorem patchCoords2_eq_amend (p : Patch) :
    patchCoords2 p = amendCoordC6 p.start2 p.length2 := rfl

/-- C6 counterexample: for an insertion at the very start of the text
(`start1 = 0`, `length1 = 0`), `Patch.toString` renders the header
`@@ -0,0 +1 @@` — the zero-length coordinate is the raw 0-based start —
whereas the claimed format (1-based offsets throughout) would render
`@@ -1,0 +1 @@`. -/
theorem claim_C6_counterexample :
    patchToString pC6 = some (asc "@@ -0,0 +1 @@" ++ [10] ++ asc "+a" ++ [10]) ∧
      claimHeaderC6 pC6 = asc "@@ -1,0 +1 @@" ++ [10] ∧
      asc "@@ -0,0 +1 @@" ≠ asc "@@ -1,0 +1 @@" := by
  refine ⟨by decide, by decide, by decide⟩

/-- C6 (amended): `Patch.toString` renders the header line as
`@@ -<c1> +<c2> @@` where a coordinate of length 1 is the 1-based offset
`start+1` with the length suffix omitted, a coordinate of length 0 is the
raw (0-based, `null` when unset) start followed by `,0`, and any other
coordinate is `start+1,length`; this header (with its trailing newline) is
an exact prefix of every successful `Patch.toString` rendering. -/
theorem claim_C6 (p : Patch) (s : JStr) (h : patchToString p = some s) :
    patchHeader p = amendHeaderC6 p ∧
      s.take (amendHeaderC6 p).length = amendHeaderC6 p := by
  have hfmt : patchHeader p = amendHeaderC6 p := rfl
  refine ⟨hfmt, ?_⟩
  unfold patchToString at h
  rcases hb : p.diffs.mapM patchBodyLine with _ | body
  · rw [hb] at h; cases h
  · rw [hb] at h
    simp only [Option.map_some', Option.some.injEq] at h
    subst h
    rw [replaceP20_append_of_noPercent _ _ (noPercent_patchHeader p)]
    rw [← hfmt]
    exact List.take_left _ _

/-- Witness for C6 at a concrete patch. -/
theorem claim_C6_witness :
    patchHeader pC6 = amendHeaderC6 pC6 ∧
      (asc "@@ -0,0 +1 @@" ++ [10] ++ asc "+a" ++ [10]).take
          (amendHeaderC6 pC6).length = amendHeaderC6 pC6 :=
  claim_C6 pC6 (asc "@@ -0,0 +1 @@" ++ [10] ++ asc "+a" ++ [10]) (by decide)

/-! ## Percent-encoding round-trip lemmas -/

theorem uriUnescaped_ne37 {c : Nat} (h : uriUnescaped c) : c ≠ 37 := by
  rcases h with h | h | h | h
  · omega
  · omega
  · omega
  · simp only [List.mem_cons, List.not_mem_nil, or_false] at h
    omega

theorem uriUnescaped_ne10 {c : Nat} (h : uriUnescaped c) : c ≠ 10 := by
  rcases h with h | h | h | h
  · omega
  · omega
  · omega
  · simp only [List.mem_cons, List.not_mem_nil, or_false] at h
    omega

theorem not_uriReserved_of_not_unescaped {c : Nat} (h : ¬uriUnescaped c) :
    ¬uriReserved c := by
  intro hr
  apply h
  unfold uriReserved at hr
  simp only [List.mem_cons, List.not_mem_nil, or_false] at hr
  rcases hr with rfl | rfl | rfl | rfl | rfl | rfl | rfl | rfl | rfl | rfl | rfl
    <;> decide

theorem hexDigU_lt (x : Nat) (hx : x < 16) :
    (48 ≤ hexDigU x ∧ hexDigU x ≤ 57) ∨ (65 ≤ hexDigU x ∧ hexDigU x ≤ 70) := by
  unfold hexDigU
  split <;> omega

theorem hexDigU_ne37 (x : Nat) (hx : x < 16) : hexDigU x ≠ 37 := by
  rcases hexDigU_lt x hx with h | h <;> omega

theorem hexDigU_ne10 (x : Nat) (hx : x < 16) : hexDigU x ≠ 10 := by
  rcases hexDigU_lt x hx with h | h <;> omega

theorem hexVal_hexDigU (x : Nat) (hx : x < 16) : hexVal (hexDigU x) = some x := by
  unfold hexVal hexDigU
  split_ifs with h1 h2 h3 h4 h5 <;> first
    | (congr 1; omega)
    | omega

theorem hexDigU_eq50 {x : Nat} (hx : x < 16) : hexDigU x = 50 ↔ x = 2 := by
  unfold hexDigU; split <;> omega

theorem hexDigU_eq48 {x : Nat} (hx : x < 16) : hexDigU x = 48 ↔ x = 0 := by
  unfold hexDigU; split <;> omega

theorem replaceP20_cons3_ne (a b c : Nat) (t : JStr)
    (h : ¬(a = 37 ∧ b = 50 ∧ c = 48)) :
    replaceP20 (a :: b :: c :: t) = a :: replaceP20 (b :: c :: t) := by
  rw [replaceP20.eq_def]
  split
  · rename_i heq
    injection heq with h1 heq
    injection heq with h2 heq
    injection heq with h3 _
    exact absurd ⟨h1, h2, h3⟩ h
  · rename_i _ heq
    injection heq with h1 h2
    subst h1; subst h2; rfl
  · rename_i heq
    cases heq

theorem replaceP20_escByte_ne32 (b : Nat) (hb : b < 256) (hne : b ≠ 32)
    (t : JStr) : replaceP20 (escByte b ++ t) = escByte b ++ replaceP20 t := by
  have hd : b / 16 < 16 := by omega
  have hm : b % 16 < 16 := by omega
  show replaceP20 (37 :: hexDigU (b / 16) :: hexDigU (b % 16) :: t) =
    37 :: hexDigU (b / 16) :: hexDigU (b % 16) :: replaceP20 t
  rw [replaceP20_cons3_ne _ _ _ _ (by
    intro ⟨_, h2, h3⟩
    rw [hexDigU_eq50 hd] at h2
    rw [hexDigU_eq48 hm] at h3
    omega)]
  rw [replaceP20_cons_ne _ _ (hexDigU_ne37 _ hd)]
  rw [replaceP20_cons_ne _ _ (hexDigU_ne37 _ hm)]

theorem replaceP20_escByte32 (t : JStr) :
    replaceP20 (escByte 32 ++ t) = 32 :: replaceP20 t := rfl

theorem decodeURIGo_cons_ne37 (fuel c : Nat) (hc : c ≠ 37) (t : JStr) :
    decodeURIGo (fuel + 1) (c :: t) = (decodeURIGo fuel t).map (c :: ·) := by
  rw [decodeURIGo.eq_def]
  split
  · rename_i heq; cases heq
  · rename_i heq _; omega
  · rename_i hfe hle
    injection hle with h1 _
    exact absurd h1 hc
  · rename_i hf hle
    injection hf with hf
    injection hle with h1 h2
    subst hf; subst h2
    rw [h1]

theorem decodeURI_cons_ne37 (c : Nat) (hc : c ≠ 37) (t : JStr) :
    decodeURI (c :: t) = (decodeURI t).map (c :: ·) := by
  unfold decodeURI
  rw [show (c :: t).length = t.length + 1 from rfl]
  exact decodeURIGo_cons_ne37 t.length c hc t

theorem hex2_escTail (b : Nat) (hb : b < 256) (t : JStr) :
    hex2 (escTail b ++ t) = some (b, t) := by
  show hex2 (hexDigU (b / 16) :: hexDigU (b % 16) :: t) = some (b, t)
  simp only [hex2]
  rw [hexVal_hexDigU _ (by omega), hexVal_hexDigU _ (by omega)]
  simp only [Option.some.injEq, Prod.mk.injEq]
  exact ⟨by omega, trivial⟩

theorem escTriple_escByte (b : Nat) (hb : b < 256) (t : JStr) :
    escTriple (escByte b ++ t) = some (b, t) := by
  unfold escByte escTriple
  rw [List.cons_append]
  exact hex2_escTail b hb t

theorem hex2_length {s : JStr} {b : Nat} {r : JStr} (h : hex2 s = some (b, r)) :
    s.length = r.length + 2 := by
  unfold hex2 at h
  split at h
  · rename_i h1 h2 rest
    split at h
    · rename_i v1 v2 _ _
      injection h with h
      injection h with _ h2
      subst h2
      simp
    · cases h
  · cases h

theorem escTriple_length {s : JStr} {b : Nat} {r : JStr}
    (h : escTriple s = some (b, r)) : s.length = r.length + 3 := by
  unfold escTriple at h
  split at h
  · rename_i rest
    have := hex2_length h
    simp [this]
  · cases h

theorem decodePercent_length {s : JStr} {ch r : JStr}
    (h : decodePercent s = some (ch, r)) : r.length + 2 ≤ s.length := by
  unfold decodePercent at h
  split at h
  · cases h
  · rename_i b rest2 h2
    have hl2 := hex2_length h2
    split_ifs at h with hb1 hres hb2 hb3 hb4
    · injection h with h; injection h with h1 hr; subst hr; omega
    · injection h with h; injection h with h1 hr; subst hr; omega
    · split at h
      · cases h
      · rename_i b2 rest3 h3
        have hl3 := escTriple_length h3
        split_ifs at h
        injection h with h; injection h with h1 hr; subst hr; omega
    · split at h
      · cases h
      · rename_i b2 rest3 h3
        have hl3 := escTriple_length h3
        split at h
        · cases h
        · rename_i b3 rest4 h4
          have hl4 := escTriple_length h4
          dsimp only at h
          split_ifs at h
          injection h with h; injection h with h1 hr; subst hr; omega
    · split at h
      · cases h
      · rename_i b2 rest3 h3
        have hl3 := escTriple_length h3
        split at h
        · cases h
        · rename_i b3 rest4 h4
          have hl4 := escTriple_length h4
          split at h
          · cases h
          · rename_i b4 rest5 h5
            have hl5 := escTriple_length h5
            dsimp only at h
            split_ifs at h
            injection h with h; injection h with h1 hr; subst hr; omega

theorem decodeURIGo_cons37 (fuel : Nat) (rest : JStr) :
    decodeURIGo (fuel + 1) (37 :: rest) =
      match decodePercent rest with
      | none => none
      | some (chunk, rest2) => (decodeURIGo fuel rest2).map (chunk ++ ·) := rfl

theorem decodeURIGo_irrel : ∀ fuel (s : JStr), s.length ≤ fuel →
    decodeURIGo fuel s = decodeURI s := by
  intro fuel
  induction fuel using Nat.strong_induction_on with
  | _ fuel ih =>
    intro s hs
    rcases fuel with _ | fuel
    · have : s = [] := by
        cases s
        · rfl
        · simp at hs
      subst this
      rfl
    · rcases s with _ | ⟨c, rest⟩
      · rfl
      · have hrest : rest.length ≤ fuel := by simp at hs; omega
        by_cases hc : c = 37
        · subst hc
          unfold decodeURI
          rw [show (37 :: rest).length = rest.length + 1 from rfl]
          rw [decodeURIGo_cons37, decodeURIGo_cons37]
          rcases hd : decodePercent rest with _ | ⟨ch, r⟩
          · rfl
          · have hlen := decodePercent_length hd
            simp only
            rw [ih fuel (by omega) r (by omega)]
            rw [ih rest.length (by omega) r (by omega)]
        · rw [decodeURIGo_cons_ne37 fuel c hc rest]
          rw [decodeURI_cons_ne37 c hc rest]
          rw [ih fuel (by omega) rest hrest]

theorem utf8Bytes_one {v : Nat} (h : v < 0x80) : utf8Bytes v = [v] := by
  unfold utf8Bytes
  rw [if_pos h]

theorem utf8Bytes_two {v : Nat} (h1 : 0x80 ≤ v) (h2 : v < 0x800) :
    utf8Bytes v = [0xC0 + v / 64, 0x80 + v % 64] := by
  unfold utf8Bytes
  rw [if_neg (by omega), if_pos h2]

theorem utf8Bytes_three {v : Nat} (h1 : 0x800 ≤ v) (h2 : v < 0x10000) :
    utf8Bytes v = [0xE0 + v / 4096, 0x80 + v / 64 % 64, 0x80 + v % 64] := by
  unfold utf8Bytes
  rw [if_neg (by omega), if_neg (by omega), if_pos h2]

theorem utf8Bytes_four {v : Nat} (h1 : 0x10000 ≤ v) :
    utf8Bytes v =
      [0xF0 + v / 262144, 0x80 + v / 4096 % 64, 0x80 + v / 64 % 64,
        0x80 + v % 64] := by
  unfold utf8Bytes
  rw [if_neg (by omega), if_neg (by omega), if_neg (by omega)]

theorem decodePercent_single (b : Nat) (hb : b < 0x80) (hnr : ¬uriReserved b)
    (t : JStr) : decodePercent (escTail b ++ t) = some ([b], t) := by
  unfold decodePercent
  rw [hex2_escTail b (by omega) t]
  dsimp only
  rw [if_pos hb, if_neg hnr]

theorem decodePercent_two (v : Nat) (h1 : 0x80 ≤ v) (h2 : v < 0x800)
    (t : JStr) :
    decodePercent (escTail (0xC0 + v / 64) ++ (escByte (0x80 + v % 64) ++ t)) =
      some ([v], t) := by
  unfold decodePercent
  rw [hex2_escTail _ (by omega) _]
  dsimp only
  rw [if_neg (by omega), if_pos (by omega : 0xC2 ≤ 0xC0 + v / 64 ∧
    0xC0 + v / 64 ≤ 0xDF)]
  rw [escTriple_escByte _ (by omega) t]
  dsimp only
  rw [if_pos (by omega : 0x80 ≤ 0x80 + v % 64 ∧ 0x80 + v % 64 ≤ 0xBF)]
  simp only [Option.some.injEq, Prod.mk.injEq, List.cons.injEq, and_true]
  omega

theorem decodePercent_three (v : Nat) (h1 : 0x800 ≤ v) (h2 : v < 0x10000)
    (hs : ¬(0xD800 ≤ v ∧ v ≤ 0xDFFF)) (t : JStr) :
    decodePercent (escTail (0xE0 + v / 4096) ++
      (escByte (0x80 + v / 64 % 64) ++ (escByte (0x80 + v % 64) ++ t))) =
      some ([v], t) := by
  unfold decodePercent
  rw [hex2_escTail _ (by omega) _]
  dsimp only
  rw [if_neg (by omega), if_neg (by omega),
    if_pos (by omega : 0xE0 ≤ 0xE0 + v / 4096 ∧ 0xE0 + v / 4096 ≤ 0xEF)]
  rw [escTriple_escByte _ (by omega) _]
  dsimp only
  rw [escTriple_escByte _ (by omega) _]
  dsimp only
  rw [if_pos (by constructor <;> [omega; (constructor <;> [omega;
    (constructor <;> [omega; (constructor <;> [omega;
      (constructor <;> omega)])])])])]
  simp only [Option.some.injEq, Prod.mk.injEq, List.cons.injEq, and_true]
  omega

theorem decodePercent_four (v : Nat) (h1 : 0x10000 ≤ v) (h2 : v ≤ 0x10FFFF)
    (t : JStr) :
    decodePercent (escTail (0xF0 + v / 262144) ++
      (escByte (0x80 + v / 4096 % 64) ++ (escByte (0x80 + v / 64 % 64) ++
        (escByte (0x80 + v % 64) ++ t)))) =
      some (utf16Units v, t) := by
  unfold decodePercent
  rw [hex2_escTail _ (by omega) _]
  dsimp only
  rw [if_neg (by omega), if_neg (by omega), if_neg (by omega),
    if_pos (by omega : 0xF0 ≤ 0xF0 + v / 262144 ∧ 0xF0 + v / 262144 ≤ 0xF4)]
  rw [escTriple_escByte _ (by omega) _]
  dsimp only
  rw [escTriple_escByte _ (by omega) _]
  dsimp only
  rw [escTriple_escByte _ (by omega) _]
  dsimp only
  rw [if_pos (by constructor <;> [omega; (constructor <;> [omega;
    (constructor <;> [omega; (constructor <;> [omega;
      (constructor <;> [omega; (constructor <;> [omega;
        (constructor <;> omega)])])])])])])]
  simp only [Option.some.injEq, Prod.mk.injEq, and_true]
  congr 1
  omega

theorem decodeURI_chunk (Y ch t : JStr)
    (h : decodePercent Y = some (ch, t)) :
    decodeURI (37 :: Y) = (decodeURI t).map (ch ++ ·) := by
  have hlen := decodePercent_length h
  unfold decodeURI
  rw [show (37 :: Y).length = Y.length + 1 from rfl]
  rw [decodeURIGo_cons37, h]
  dsimp only
  rw [decodeURIGo_irrel Y.length t (by omega)]
  rfl

theorem utf16Units_pair (c c2 : Nat) (hc : 0xD800 ≤ c ∧ c ≤ 0xDBFF)
    (hc2 : 0xDC00 ≤ c2 ∧ c2 ≤ 0xDFFF) :
    utf16Units ((c - 0xD800) * 1024 + (c2 - 0xDC00) + 0x10000) = [c, c2] := by
  unfold utf16Units
  rw [if_neg (by omega)]
  have h1 : ((c - 0xD800) * 1024 + (c2 - 0xDC00) + 0x10000 - 0x10000) / 1024 =
      c - 0xD800 := by omega
  have h2 : ((c - 0xD800) * 1024 + (c2 - 0xDC00) + 0x10000 - 0x10000) % 1024 =
      c2 - 0xDC00 := by omega
  rw [h1, h2]
  simp only [List.cons.injEq, and_true]
  omega

/-- The key serialization fact: decoding the space-rewritten percent
encoding of a valid UTF-16 string recovers the string exactly. -/
theorem decode_replaceP20_enc : ∀ n, ∀ s e : JStr, s.length ≤ n →
    (∀ c ∈ s, c < 0x10000) → encodeURI s = some e →
    decodeURI (replaceP20 e) = some s := by
  intro n
  induction n using Nat.strong_induction_on with
  | _ n ih =>
    intro s e hn hv henc
    rcases s with _ | ⟨c, rest⟩
    · injection henc with henc
      subst henc
      rfl
    · have hrest : rest.length < n := by simp at hn; omega
      have hvr : ∀ x ∈ rest, x < 0x10000 :=
        fun x hx => hv x (List.mem_cons_of_mem c hx)
      have hvc : c < 0x10000 := hv c (List.mem_cons_self c rest)
      unfold encodeURI at henc
      split_ifs at henc with hun hld htr
      · -- unescaped character, kept literally
        rcases Option.map_eq_some'.1 henc with ⟨e', he', rfl⟩
        rw [replaceP20_cons_ne c _ (uriUnescaped_ne37 hun)]
        rw [decodeURI_cons_ne37 c (uriUnescaped_ne37 hun) _]
        rw [ih rest.length hrest rest e' (le_refl _) hvr he']
        rfl
      · -- lead surrogate: must pair with a trail surrogate
        split at henc
        · cases henc
        · rename_i c2 rest2
          split_ifs at henc with htr2
          rcases Option.map_eq_some'.1 henc with ⟨e', he', rfl⟩
          have hv2 : 0x10000 ≤ (c - 0xD800) * 1024 + (c2 - 0xDC00) + 0x10000 := by
            omega
          have hv2' : (c - 0xD800) * 1024 + (c2 - 0xDC00) + 0x10000 ≤ 0x10FFFF := by
            omega
          rw [utf8Bytes_four hv2]
          simp only [List.map_cons, List.map_nil, List.flatten_cons,
            List.flatten_nil, List.append_nil, List.append_assoc]
          set v : Nat := (c - 0xD800) * 1024 + (c2 - 0xDC00) + 0x10000 with hvdef
          rw [replaceP20_escByte_ne32 _ (by omega) (by omega) _]
          rw [replaceP20_escByte_ne32 _ (by omega) (by omega) _]
          rw [replaceP20_escByte_ne32 _ (by omega) (by omega) _]
          rw [replaceP20_escByte_ne32 _ (by omega) (by omega) _]
          show decodeURI (37 :: (escTail (0xF0 + v / 262144) ++
            (escByte (0x80 + v / 4096 % 64) ++ (escByte (0x80 + v / 64 % 64) ++
              (escByte (0x80 + v % 64) ++ replaceP20 e'))))) =
            some (c :: c2 :: rest2)
          rw [decodeURI_chunk _ _ _ (decodePercent_four v hv2 hv2' _)]
          have hrest2 : rest2.length < n := by simp at hn; omega
          have hvr2 : ∀ x ∈ rest2, x < 0x10000 := fun x hx =>
            hvr x (List.mem_cons_of_mem c2 hx)
          rw [ih rest2.length hrest2 rest2 e' (le_refl _) hvr2 he']
          rw [utf16Units_pair c c2 hld htr2]
          rfl
      · -- escaped character (UTF-8 percent escapes)
        rcases Option.map_eq_some'.1 henc with ⟨e', he', rfl⟩
        have hihr := ih rest.length hrest rest e' (le_refl _) hvr he'
        by_cases h80 : c < 0x80
        · rw [utf8Bytes_one h80]
          simp only [List.map_cons, List.map_nil, List.flatten_cons,
            List.flatten_nil, List.append_nil]
          by_cases h32 : c = 32
          · subst h32
            rw [replaceP20_escByte32]
            rw [decodeURI_cons_ne37 32 (by omega) _]
            rw [hihr]
            rfl
          · rw [replaceP20_escByte_ne32 _ (by omega) h32 _]
            show decodeURI (37 :: (escTail c ++ replaceP20 e')) =
              some (c :: rest)
            rw [decodeURI_chunk _ _ _ (decodePercent_single c h80
              (not_uriReserved_of_not_unescaped hun) _)]
            rw [hihr]
            rfl
        · by_cases h800 : c < 0x800
          · rw [utf8Bytes_two (by omega) h800]
            simp only [List.map_cons, List.map_nil, List.flatten_cons,
              List.flatten_nil, List.append_nil, List.append_assoc]
            rw [replaceP20_escByte_ne32 _ (by omega) (by omega) _]
            rw [replaceP20_escByte_ne32 _ (by omega) (by omega) _]
            show decodeURI (37 :: (escTail (0xC0 + c / 64) ++
              (escByte (0x80 + c % 64) ++ replaceP20 e'))) = some (c :: rest)
            rw [decodeURI_chunk _ _ _ (decodePercent_two c (by omega) h800 _)]
            rw [hihr]
            rfl
          · have hsur : ¬(0xD800 ≤ c ∧ c ≤ 0xDFFF) := by
              intro hs
              by_cases hcl : c ≤ 0xDBFF
              · exact hld ⟨hs.1, hcl⟩
              · exact htr ⟨by omega, hs.2⟩
            rw [utf8Bytes_three (by omega) hvc]
            simp only [List.map_cons, List.map_nil, List.flatten_cons,
              List.flatten_nil, List.append_nil, List.append_assoc]
            rw [replaceP20_escByte_ne32 _ (by omega) (by omega) _]
            rw [replaceP20_escByte_ne32 _ (by omega) (by omega) _]
            rw [replaceP20_escByte_ne32 _ (by omega) (by omega) _]
            show decodeURI (37 :: (escTail (0xE0 + c / 4096) ++
              (escByte (0x80 + c / 64 % 64) ++ (escByte (0x80 + c % 64) ++
                replaceP20 e')))) = some (c :: rest)
            rw [decodeURI_chunk _ _ _ (decodePercent_three c (by omega) hvc
              hsur _)]
            rw [hihr]
            rfl

/-! ## Claim C8: Segment Codec catch-all behaviour -/

theorem alookup_append_of_notMem (m : List (JStr × JStr)) (k v : JStr)
    (h : k ∉ m.map Prod.fst) : alookup (m ++ [(k, v)]) k = some v := by
  induction m with
  | nil => simp [alookup]
  | cons p rest ih =>
    have hk : p.1 ≠ k := by
      intro he; exact h (by simp [he])
    rcases p with ⟨k', v'⟩
    simp only [List.cons_append, alookup]
    rw [if_neg hk]
    exact ih (fun hm => h (List.mem_cons_of_mem _ hm))

theorem fromCharCode_max_notMem_keys (n max : Nat) (hn : n < max)
    (hmax : max ≤ 65535) :
    jfromCharCode max ∉ (List.range' 1 n).map jfromCharCode := by
  intro h
  rcases List.mem_map.1 h with ⟨i, hi, hfc⟩
  have hi' : 1 ≤ i ∧ i < 1 + n := by
    have := List.mem_range'_1.1 hi; omega
  have h1 : i % 65536 = i := Nat.mod_eq_of_lt (by omega)
  have h2 : max % 65536 = max := Nat.mod_eq_of_lt (by omega)
  unfold jfromCharCode at hfc
  rw [h1, h2] at hfc
  have : i = max := by injection hfc
  omega

theorem codePoints_single (c : Nat) : codePoints [c] = [[c]] := by
  by_cases h : 0xD800 ≤ c ∧ c ≤ 0xDBFF <;> simp [codePoints, codePointsGo, h]

theorem encodeGo_cap (max : Nat) (hmax : max ≤ 65535) (segs : List JStr) :
    ∀ st : CodecState, st.n < max → codecKeys st →
    (encodeGo st max segs).2.n = max →
    ∃ k, k < segs.length ∧
      (encodeGo st max segs).1 =
        (encodeGo st max (segs.take k)).1 ++ jfromCharCode max ∧
      alookup (encodeGo st max segs).2.decoded (jfromCharCode max) =
        some ((segs.drop k).flatten) := by
  induction segs with
  | nil =>
    intro st hlt _ hcap
    exact absurd hcap (by simp [encodeGo]; omega)
  | cons seg rest ih =>
    intro st hlt hkeys hcap
    by_cases hseen : ∃ u, alookup st.encoded seg = some u
    · rcases hseen with ⟨u, hu⟩
      have hres : encodeGo st max (seg :: rest) =
          (u ++ (encodeGo st max rest).1, (encodeGo st max rest).2) := by
        simp [encodeGo, hu]
      rcases ih st hlt hkeys (by rw [hres] at hcap; exact hcap) with
        ⟨k, hk, hout, hdec⟩
      refine ⟨k + 1, by simpa using hk, ?_, ?_⟩
      · have htake : encodeGo st max ((seg :: rest).take (k + 1)) =
            (u ++ (encodeGo st max (rest.take k)).1,
              (encodeGo st max (rest.take k)).2) := by
          simp [encodeGo, hu]
        rw [hres, htake]
        simp [hout]
      · rw [hres]
        simpa using hdec
    · have hu : alookup st.encoded seg = none := by
        rcases halo : alookup st.encoded seg with _ | u
        · rfl
        · exact absurd ⟨u, halo⟩ hseen
      by_cases hcapnow : st.n + 1 = max
      · -- the allocation counter reaches `max` right here: catch-all
        refine ⟨0, by simp, ?_, ?_⟩
        · simp [encodeGo, hu, hcapnow]
        · have hres : (encodeGo st max (seg :: rest)).2.decoded =
              st.decoded ++ [(jfromCharCode max, (seg :: rest).flatten)] := by
            simp [encodeGo, hu, hcapnow]
          rw [hres]
          refine alookup_append_of_notMem _ _ _ ?_
          rw [hkeys]
          exact fromCharCode_max_notMem_keys st.n max hlt hmax
      · -- a fresh allocation below the cap
        have hlt' : st.n + 1 < max := by omega
        set st' : CodecState :=
          { n := st.n + 1,
            encoded := st.encoded ++ [(seg, jfromCharCode (st.n + 1))],
            decoded := st.decoded ++ [(jfromCharCode (st.n + 1), seg)] }
          with hst'
        have hkeys' : codecKeys st' := by
          unfold codecKeys at hkeys ⊢
          rw [hst']
          simp only [List.map_append, List.map_cons, List.map_nil]
          rw [hkeys, List.range'_concat]
          simp [Nat.add_comm]
        have hres : encodeGo st max (seg :: rest) =
            (jfromCharCode (st.n + 1) ++ (encodeGo st' max rest).1,
              (encodeGo st' max rest).2) := by
          simp [encodeGo, hu, hcapnow, hst']
        rcases ih st' hlt' hkeys' (by rw [hres] at hcap; exact hcap) with
          ⟨k, hk, hout, hdec⟩
        refine ⟨k + 1, by simpa using hk, ?_, ?_⟩
        · have htake : encodeGo st max ((seg :: rest).take (k + 1)) =
              (jfromCharCode (st.n + 1) ++ (encodeGo st' max (rest.take k)).1,
                (encodeGo st' max (rest.take k)).2) := by
            simp [encodeGo, hu, hcapnow, hst']
          rw [hres, htake]
          simp [hout]
        · rw [hres]
          simpa using hdec

/-- C8: whenever a `SegmentCodec.encode` call drives the allocation counter
up to `max`, there is a position `k` in the segment list from which on all
remaining segments are joined into a single catch-all segment: the encoded
output is the encoding of the first `k` segments followed by exactly the
one unit allocated at the cap, and `decode` maps that unit back to the
concatenation of the remaining segments. -/
theorem claim_C8 (st : CodecState) (segs : List JStr) (max : Nat)
    (out : JStr) (st' : CodecState)
    (hkeys : codecKeys st) (hmax : max ≤ 65535)
    (henc : SegmentCodec.encode st segs max = some (out, st'))
    (hcap : st'.n = max) :
    ∃ k, k < segs.length ∧
      out = (encodeGo st max (segs.take k)).1 ++ jfromCharCode max ∧
      alookup st'.decoded (jfromCharCode max) = some ((segs.drop k).flatten) ∧
      SegmentCodec.decode st' (jfromCharCode max) = [(segs.drop k).flatten] := by
  unfold SegmentCodec.encode at henc
  by_cases hge : st.n ≥ max
  · rw [if_pos hge] at henc; cases henc
  · rw [if_neg hge] at henc
    have hlt : st.n < max := by omega
    have hpair : encodeGo st max segs = (out, st') := Option.some.inj henc
    rcases encodeGo_cap max hmax segs st hlt hkeys
        (by rw [hpair]; exact hcap) with ⟨k, hk, hout, hdec⟩
    rw [hpair] at hout hdec
    refine ⟨k, hk, hout, hdec, ?_⟩
    unfold SegmentCodec.decode
    unfold jfromCharCode
    rw [codePoints_single]
    have : jfromCharCode max = [max % 65536] := rfl
    simp [← this, hdec]

/-- The segment list of the C8 witness. -/
theorem claim_C8_witness :
    ∃ k, k < ([[65], [66], [67]] : List JStr).length ∧
      ([1, 2] : JStr) =
        (encodeGo {} 2 (([[65], [66], [67]] : List JStr).take k)).1 ++
          jfromCharCode 2 ∧
      alookup (stC8.decoded) (jfromCharCode 2) =
        some ((([[65], [66], [67]] : List JStr).drop k).flatten) ∧
      SegmentCodec.decode stC8 (jfromCharCode 2) =
        [(([[65], [66], [67]] : List JStr).drop k).flatten] :=
  claim_C8 {} [[65], [66], [67]] 2 [1, 2] stC8
    (by decide) (by decide) (by decide) (by decide)

/-! ## Claim C7: `patch_fromText` error behaviour -/

/-- `split` never returns an empty list of lines. -/
theorem splitNL_ne_nil (t : JStr) : splitNL t ≠ [] := by
  unfold splitNL
  split
  · simp
  · simp
  · split <;> simp

/-- A line accepted by the header pattern starts with `@`. -/
theorem headerMatch_head (l : JStr) (g : JStr × JStr × JStr × JStr)
    (h : headerMatch l = some g) : l.take 1 = [64] := by
  by_cases h4 : l.take 4 = [64, 64, 32, 45]
  · calc l.take 1 = l.take (min 1 4) := by norm_num
    _ = (l.take 4).take 1 := (List.take_take 1 4 l).symm
    _ = [64] := by rw [h4]; rfl
  · unfold headerMatch at h
    rw [if_neg h4] at h
    cases h

/-- Each line consumed by the body loop (not handed back to the outer
loop) is blank or starts with `+`, `-` or space. -/
theorem patchBodyGo_good (lines : List JStr) : ∀ (acc ds : List Diff)
    (rem : List JStr), patchBodyGo lines acc = some (ds, rem) →
    ∃ pre, lines = pre ++ rem ∧ ∀ l ∈ pre,
      l = [] ∨ l.take 1 = [43] ∨ l.take 1 = [45] ∨ l.take 1 = [32] := by
  induction lines with
  | nil =>
    intro acc ds rem h
    unfold patchBodyGo at h
    rw [Option.some.injEq, Prod.mk.injEq] at h
    exact ⟨[], by simp [h.2.symm], by simp⟩
  | cons l rest ih =>
    intro acc ds rem h
    unfold patchBodyGo at h
    dsimp only at h
    cases hdec : decodeURI (jsubstringFrom l 1) with
    | none => rw [hdec] at h; cases h
    | some line =>
      rw [hdec] at h
      dsimp only at h
      split_ifs at h with h45 h43 h32 h64 hblank
      · obtain ⟨pre, hpre, hgood⟩ := ih _ _ _ h
        refine ⟨l :: pre, by simp [hpre], ?_⟩
        intro x hx
        rcases List.mem_cons.1 hx with rfl | hx
        · exact Or.inr (Or.inr (Or.inl h45))
        · exact hgood x hx
      · obtain ⟨pre, hpre, hgood⟩ := ih _ _ _ h
        refine ⟨l :: pre, by simp [hpre], ?_⟩
        intro x hx
        rcases List.mem_cons.1 hx with rfl | hx
        · exact Or.inr (Or.inl h43)
        · exact hgood x hx
      · obtain ⟨pre, hpre, hgood⟩ := ih _ _ _ h
        refine ⟨l :: pre, by simp [hpre], ?_⟩
        intro x hx
        rcases List.mem_cons.1 hx with rfl | hx
        · exact Or.inr (Or.inr (Or.inr h32))
        · exact hgood x hx
      · rw [Option.some.injEq, Prod.mk.injEq] at h
        exact ⟨[], by simp [h.2.symm], by simp⟩
      · obtain ⟨pre, hpre, hgood⟩ := ih _ _ _ h
        have hl : l = [] := by
          cases l with
          | nil => rfl
          | cons a as => simp at hblank
        refine ⟨l :: pre, by simp [hpre], ?_⟩
        intro x hx
        rcases List.mem_cons.1 hx with rfl | hx
        · exact Or.inl hl
        · exact hgood x hx

/-- Whenever the patch parser succeeds, every line of the input was blank,
a body line with a legal sign, or a line matching the header pattern. -/
theorem fromTextGo_good : ∀ (fuel : Nat) (lines : List JStr)
    (ps : List Patch), fromTextGo fuel lines = some ps →
    ∀ l ∈ lines, goodLine l := by
  intro fuel
  induction fuel with
  | zero =>
    intro lines ps h l hl
    cases lines with
    | nil => cases hl
    | cons a as => cases h
  | succ fuel ih =>
    intro lines ps h l hl
    cases lines with
    | nil => cases hl
    | cons a rest =>
      unfold fromTextGo at h
      cases hm : headerMatch a with
      | none => rw [hm] at h; cases h
      | some g =>
        rw [hm] at h
        cases hb : patchBodyGo rest [] with
        | none => rw [hb] at h; cases h
        | some p =>
          obtain ⟨ds, rem⟩ := p
          rw [hb] at h
          dsimp only at h
          cases hf : fromTextGo fuel rem with
          | none => rw [hf] at h; cases h
          | some ps' =>
            obtain ⟨pre, hpre, hgood⟩ := patchBodyGo_good rest [] ds rem hb
            rcases List.mem_cons.1 hl with rfl | hl
            · exact Or.inr (Or.inr (Or.inr (Or.inr
                ⟨headerMatch_head l g hm, by rw [hm]; rfl⟩)))
            · subst hpre
              rcases List.mem_append.1 hl with hp | hr
              · rcases hgood l hp with h1 | h1 | h1 | h1
                · exact Or.inl h1
                · exact Or.inr (Or.inl h1)
                · exact Or.inr (Or.inr (Or.inl h1))
                · exact Or.inr (Or.inr (Or.inr (Or.inl h1)))
              · exact ih rem ps' hf l hr

/-- **C7** counterexample.  The claim asserts a format error on every
input whose first unconsumed line fails the header pattern and on every
body line whose first character is outside `+`, `-`, space, `@`.  The
empty input splits into the single line `[]`, which does not match the
header pattern, yet `patch_fromText` returns an empty patch list without
error; and a blank body line (first character outside the set) is
silently skipped rather than rejected. -/
theorem claim_C7_counterexample :
    patch_fromText [] = some [] ∧ splitNL [] = [[]] ∧
      headerMatch [] = none ∧
      splitNL (asc "@@ -0,0 +0,0 @@\n") =
        [asc "@@ -0,0 +0,0 @@", []] ∧
      patch_fromText (asc "@@ -0,0 +0,0 @@\n") =
        some [{ diffs := [], start1 := some 0, start2 := some 0,
                length1 := 0, length2 := 0 }] := by
  refine ⟨rfl, rfl, rfl, by decide, by decide⟩

/-- **C7** (amended): for every nonempty input, `patch_fromText` throws
(returns `none`) whenever the first line fails the header pattern, and
whenever it succeeds every input line is blank, starts with `+`, `-` or
space, or matches the header pattern — so any nonblank line with a first
character outside that set, and any ill-formed nonblank `@` line, is
rejected. -/
theorem claim_C7 (t : JStr) (ht : t ≠ []) :
    (headerMatch (splitNL t).headI = none → patch_fromText t = none) ∧
    ∀ ps, patch_fromText t = some ps → ∀ l ∈ splitNL t, goodLine l := by
  constructor
  · intro hm
    unfold patch_fromText
    rw [if_neg ht]
    cases hs : splitNL t with
    | nil => exact absurd hs (splitNL_ne_nil t)
    | cons a rest =>
      rw [hs] at hm
      rw [show (a :: rest).headI = a from rfl] at hm
      unfold fromTextGo
      rw [hm]
  · intro ps hps l hl
    unfold patch_fromText at hps
    rw [if_neg ht] at hps
    exact fromTextGo_good _ _ _ hps l hl

/-- Concrete instance of C7: a nonempty input whose first line is not a
patch header is rejected. -/
theorem claim_C7_witness : patch_fromText [66, 97, 100] = none :=
  (claim_C7 [66, 97, 100] (by decide)).1 (by decide)

/-! ## Substring and rendering support lemmas (claim C3) -/

theorem mem_jsubstring {c : Nat} {s : JStr} {a b : Int}
    (h : c ∈ jsubstring s a b) : c ∈ s := by
  unfold jsubstring at h
  dsimp only at h
  exact List.mem_of_mem_take (List.mem_of_mem_drop h)

theorem jsubstring_length_le (s : JStr) (a b : Int) (hb : 0 ≤ b)
    (hab : a ≤ b) : ((jsubstring s a b).length : Int) ≤ b := by
  unfold jsubstring
  dsimp only
  simp only [List.length_drop, List.length_take]
  omega

/-- `replaceP20` helper: with fewer than two units after the head, the
escape pattern cannot match and the head passes through. -/
theorem replaceP20_short (a : Nat) (r : JStr) (hr : r.length ≤ 1) :
    replaceP20 (a :: r) = a :: replaceP20 r := by
  rw [replaceP20.eq_def]
  split
  · rename_i heq
    injection heq with h1 h2
    subst h2
    simp at hr
  · rename_i _ heq
    injection heq with h1 h2
    subst h1; subst h2; rfl
  · rename_i heq
    cases heq

theorem mem_replaceP20 : ∀ (s : JStr), ∀ c ∈ replaceP20 s, c ∈ s ∨ c = 32
  | [] => by intro c hc; cases hc
  | [a] => by
    intro c hc
    rw [replaceP20_short a [] (by simp)] at hc
    rcases List.mem_cons.1 hc with rfl | hc
    · exact Or.inl (List.mem_cons_self _ _)
    · cases hc
  | [a, b] => by
    intro c hc
    rw [replaceP20_short a [b] (by simp),
      replaceP20_short b [] (by simp)] at hc
    rcases List.mem_cons.1 hc with rfl | hc
    · exact Or.inl (List.mem_cons_self _ _)
    · rcases List.mem_cons.1 hc with rfl | hc
      · exact Or.inl (List.mem_cons_of_mem _ (List.mem_cons_self _ _))
      · cases hc
  | a :: b :: c' :: t => by
    intro c hc
    by_cases hp : a = 37 ∧ b = 50 ∧ c' = 48
    · obtain ⟨rfl, rfl, rfl⟩ := hp
      have he : replaceP20 (37 :: 50 :: 48 :: t) = 32 :: replaceP20 t := rfl
      rw [he] at hc
      rcases List.mem_cons.1 hc with rfl | hc
      · exact Or.inr rfl
      · rcases mem_replaceP20 t c hc with h | h
        · exact Or.inl (List.mem_cons_of_mem _ (List.mem_cons_of_mem _
            (List.mem_cons_of_mem _ h)))
        · exact Or.inr h
    · rw [replaceP20_cons3_ne a b c' t hp] at hc
      rcases List.mem_cons.1 hc with rfl | hc
      · exact Or.inl (List.mem_cons_self _ _)
      · rcases mem_replaceP20 (b :: c' :: t) c hc with h | h
        · exact Or.inl (List.mem_cons_of_mem _ h)
        · exact Or.inr h

theorem utf8Bytes_lt {v : Nat} (hv : v ≤ 0x10FFFF) :
    ∀ b ∈ utf8Bytes v, b < 256 := by
  intro b hb
  unfold utf8Bytes at hb
  split_ifs at hb with h1 h2 h3
  · simp only [List.mem_cons, List.not_mem_nil, or_false] at hb
    omega
  · simp only [List.mem_cons, List.not_mem_nil, or_false] at hb
    rcases hb with rfl | rfl <;> omega
  · simp only [List.mem_cons, List.not_mem_nil, or_false] at hb
    rcases hb with rfl | rfl | rfl <;> omega
  · simp only [List.mem_cons, List.not_mem_nil, or_false] at hb
    rcases hb with rfl | rfl | rfl | rfl <;> omega

theorem mem_escByte {c b : Nat} (hb : b < 256) (h : c ∈ escByte b) :
    c = 37 ∨ (48 ≤ c ∧ c ≤ 57) ∨ (65 ≤ c ∧ c ≤ 70) := by
  unfold escByte escTail at h
  rcases List.mem_cons.1 h with rfl | h
  · exact Or.inl rfl
  · rcases List.mem_cons.1 h with rfl | h
    · rcases hexDigU_lt (b / 16) (by omega) with h' | h'
      · exact Or.inr (Or.inl h')
      · exact Or.inr (Or.inr h')
    · rcases List.mem_cons.1 h with rfl | h
      · rcases hexDigU_lt (b % 16) (by omega) with h' | h'
        · exact Or.inr (Or.inl h')
        · exact Or.inr (Or.inr h')
      · cases h

theorem mem_escFlatten {c : Nat} {bs : List Nat} (hbs : ∀ b ∈ bs, b < 256)
    (h : c ∈ (bs.map escByte).flatten) :
    c = 37 ∨ (48 ≤ c ∧ c ≤ 57) ∨ (65 ≤ c ∧ c ≤ 70) := by
  rcases List.mem_flatten.1 h with ⟨l, hl, hc⟩
  rcases List.mem_map.1 hl with ⟨b, hb, rfl⟩
  exact mem_escByte (hbs b hb) hc

/-- Every unit of a successful `encodeURI` rendering is an unescaped
character, a percent sign, or an uppercase hex digit. -/
theorem mem_encodeURI : ∀ n (s e : JStr), s.length ≤ n →
    (∀ c ∈ s, c < 0x10000) → encodeURI s = some e →
    ∀ c ∈ e, uriUnescaped c ∨ c = 37 ∨ (48 ≤ c ∧ c ≤ 57) ∨
      (65 ≤ c ∧ c ≤ 70) := by
  intro n
  induction n using Nat.strong_induction_on with
  | _ n ih =>
    intro s e hn hv henc c hc
    rcases s with _ | ⟨c0, rest⟩
    · injection henc with henc
      subst henc
      cases hc
    · have hrest : rest.length < n := by simp at hn; omega
      have hvr : ∀ x ∈ rest, x < 0x10000 :=
        fun x hx => hv x (List.mem_cons_of_mem c0 hx)
      have hvc : c0 < 0x10000 := hv c0 (List.mem_cons_self c0 rest)
      unfold encodeURI at henc
      split_ifs at henc with hun hld htr
      · rcases Option.map_eq_some'.1 henc with ⟨e', he', rfl⟩
        rcases List.mem_cons.1 hc with rfl | hc
        · exact Or.inl hun
        · exact ih rest.length hrest rest e' (le_refl _) hvr he' c hc
      · split at henc
        · cases henc
        · rename_i c2 rest2
          split_ifs at henc with htr2
          rcases Option.map_eq_some'.1 henc with ⟨e', he', rfl⟩
          rcases List.mem_append.1 hc with hc | hc
          · exact Or.inr (mem_escFlatten (utf8Bytes_lt (by omega) ·) hc)
          · have hvr2 : ∀ x ∈ rest2, x < 0x10000 := fun x hx =>
              hvr x (List.mem_cons_of_mem c2 hx)
            have hrest2 : rest2.length < n := by simp at hn; omega
            exact ih rest2.length hrest2 rest2 e' (le_refl _) hvr2 he' c hc
      · rcases Option.map_eq_some'.1 henc with ⟨e', he', rfl⟩
        rcases List.mem_append.1 hc with hc | hc
        · exact Or.inr (mem_escFlatten (utf8Bytes_lt (by omega) ·) hc)
        · exact ih rest.length hrest rest e' (le_refl _) hvr he' c hc

/-- `encodeURI` output never contains a raw newline. -/
theorem encodeURI_ne10 {s e : JStr} (hv : ∀ c ∈ s, c < 0x10000)
    (h : encodeURI s = some e) : ∀ c ∈ e, c ≠ 10 := by
  intro c hc
  rcases mem_encodeURI s.length s e (le_refl _) hv h c hc with h' | h' | h' | h'
  · exact uriUnescaped_ne10 h'
  · omega
  · omega
  · omega

/-- The `%20 → space` rewrite splits at any boundary following a complete
`encodeURI` rendering: escapes never straddle the boundary. -/
theorem replaceP20_enc_append : ∀ n (s e : JStr), s.length ≤ n →
    (∀ c ∈ s, c < 0x10000) → encodeURI s = some e →
    ∀ t, replaceP20 (e ++ t) = replaceP20 e ++ replaceP20 t := by
  intro n
  induction n using Nat.strong_induction_on with
  | _ n ih =>
    intro s e hn hv henc t
    rcases s with _ | ⟨c, rest⟩
    · injection henc with henc
      subst henc
      rfl
    · have hrest : rest.length < n := by simp at hn; omega
      have hvr : ∀ x ∈ rest, x < 0x10000 :=
        fun x hx => hv x (List.mem_cons_of_mem c hx)
      have hvc : c < 0x10000 := hv c (List.mem_cons_self c rest)
      unfold encodeURI at henc
      split_ifs at henc with hun hld htr
      · rcases Option.map_eq_some'.1 henc with ⟨e', he', rfl⟩
        rw [List.cons_append,
          replaceP20_cons_ne c _ (uriUnescaped_ne37 hun),
          replaceP20_cons_ne c _ (uriUnescaped_ne37 hun),
          ih rest.length hrest rest e' (le_refl _) hvr he' t,
          List.cons_append]
      · split at henc
        · cases henc
        · rename_i c2 rest2
          split_ifs at henc with htr2
          rcases Option.map_eq_some'.1 henc with ⟨e', he', rfl⟩
          have hvr2 : ∀ x ∈ rest2, x < 0x10000 := fun x hx =>
            hvr x (List.mem_cons_of_mem c2 hx)
          have hrest2 : rest2.length < n := by simp at hn; omega
          set v : Nat := (c - 0xD800) * 1024 + (c2 - 0xDC00) + 0x10000 with hvdef
          rw [utf8Bytes_four (by omega)]
          simp only [List.map_cons, List.map_nil, List.flatten_cons,
            List.flatten_nil, List.append_nil, List.append_assoc,
            List.nil_append]
          rw [replaceP20_escByte_ne32 _ (by omega) (by omega) _,
            replaceP20_escByte_ne32 _ (by omega) (by omega) _,
            replaceP20_escByte_ne32 _ (by omega) (by omega) _,
            replaceP20_escByte_ne32 _ (by omega) (by omega) _,
            replaceP20_escByte_ne32 _ (by omega) (by omega) _,
            replaceP20_escByte_ne32 _ (by omega) (by omega) _,
            replaceP20_escByte_ne32 _ (by omega) (by omega) _,
            replaceP20_escByte_ne32 _ (by omega) (by omega) _,
            ih rest2.length hrest2 rest2 e' (le_refl _) hvr2 he' t]
          simp only [List.append_assoc]
      · rcases Option.map_eq_some'.1 henc with ⟨e', he', rfl⟩
        have hihr := ih rest.length hrest rest e' (le_refl _) hvr he' t
        by_cases h80 : c < 0x80
        · rw [utf8Bytes_one h80]
          simp only [List.map_cons, List.map_nil, List.flatten_cons,
            List.flatten_nil, List.append_nil, List.append_assoc,
            List.nil_append]
          by_cases h32 : c = 32
          · subst h32
            rw [replaceP20_escByte32, replaceP20_escByte32, hihr,
              List.cons_append]
          · rw [replaceP20_escByte_ne32 _ (by omega) h32 _,
              replaceP20_escByte_ne32 _ (by omega) h32 _, hihr,
              List.append_assoc]
        · by_cases h800 : c < 0x800
          · rw [utf8Bytes_two (by omega) h800]
            simp only [List.map_cons, List.map_nil, List.flatten_cons,
              List.flatten_nil, List.append_nil, List.append_assoc,
              List.nil_append]
            rw [replaceP20_escByte_ne32 _ (by omega) (by omega) _,
              replaceP20_escByte_ne32 _ (by omega) (by omega) _,
              replaceP20_escByte_ne32 _ (by omega) (by omega) _,
              replaceP20_escByte_ne32 _ (by omega) (by omega) _, hihr]
            simp only [List.append_assoc]
          · rw [utf8Bytes_three (by omega) hvc]
            simp only [List.map_cons, List.map_nil, List.flatten_cons,
              List.flatten_nil, List.append_nil, List.append_assoc,
              List.nil_append]
            rw [replaceP20_escByte_ne32 _ (by omega) (by omega) _,
              replaceP20_escByte_ne32 _ (by omega) (by omega) _,
              replaceP20_escByte_ne32 _ (by omega) (by omega) _,
              replaceP20_escByte_ne32 _ (by omega) (by omega) _,
              replaceP20_escByte_ne32 _ (by omega) (by omega) _,
              replaceP20_escByte_ne32 _ (by omega) (by omega) _, hihr]
            simp only [List.append_assoc]

/-- A percent-free string decodes to itself. -/
theorem decodeURI_noPercent : ∀ (s : JStr), (∀ c ∈ s, c ≠ 37) →
    decodeURI s = some s := by
  intro s
  induction s with
  | nil => intro _; rfl
  | cons c rest ih =>
    intro h
    rw [decodeURI_cons_ne37 c (h c (List.mem_cons_self c rest)) rest,
      ih (fun x hx => h x (List.mem_cons_of_mem c hx))]
    rfl

/-- `splitNL` helper: a non-newline unit joins the first line. -/
theorem splitNL_cons_ne10 (a : Nat) (ha : a ≠ 10) (r : JStr) :
    splitNL (a :: r) = match splitNL r with
      | [] => [[a]]
      | l :: ls => (a :: l) :: ls := by
  rw [splitNL.eq_def]
  split
  · rename_i heq
    cases heq
  · rename_i heq
    injection heq with h1 _
    exact absurd h1 ha
  · rename_i _ heq
    injection heq with h1 h2
    subst h1; subst h2; rfl

/-- `split('\n')` splits off a newline-free prefix. -/
theorem splitNL_append (A B : JStr) (hA : ∀ c ∈ A, c ≠ 10) :
    splitNL (A ++ 10 :: B) = A :: splitNL B := by
  induction A with
  | nil => rfl
  | cons a A' ih =>
    have ha : a ≠ 10 := hA a (List.mem_cons_self _ _)
    have hA' : ∀ c ∈ A', c ≠ 10 := fun c hc => hA c (List.mem_cons_of_mem a hc)
    rw [List.cons_append, splitNL_cons_ne10 a ha _, ih hA']

/-! ## Decimal rendering and reparsing (claim C3) -/

theorem natDecS_eq (n : Nat) : ∀ fuel (acc : JStr), n ≤ fuel →
    natDecGo fuel n acc = natDecS n ++ acc := by
  induction n using Nat.strong_induction_on with
  | _ n ih =>
    intro fuel acc hf
    rcases fuel with _ | f
    · have hn : n = 0 := by omega
      subst hn
      have h0 : natDecS 0 = [48] := by
        rw [natDecS.eq_def]
        norm_num
      rw [h0]
      show (48 + 0 % 10) :: acc = [48] ++ acc
      norm_num
    · by_cases h10 : n < 10
      · show (if n < 10 then (48 + n) :: acc
          else natDecGo f (n / 10) ((48 + n % 10) :: acc)) = natDecS n ++ acc
        rw [if_pos h10, natDecS.eq_def, if_pos h10]
        rfl
      · show (if n < 10 then (48 + n) :: acc
          else natDecGo f (n / 10) ((48 + n % 10) :: acc)) = natDecS n ++ acc
        rw [if_neg h10,
          ih (n / 10) (Nat.div_lt_self (by omega) (by omega)) f _ (by omega)]
        conv_rhs => rw [natDecS.eq_def]
        rw [if_neg h10, List.append_assoc]
        rfl

theorem natDec_eq_natDecS (n : Nat) : natDec n = natDecS n := by
  unfold natDec
  rw [natDecS_eq n n [] (le_refl n), List.append_nil]

theorem natDecS_ne_nil (n : Nat) : natDecS n ≠ [] := by
  rw [natDecS.eq_def]
  split
  · simp
  · simp

theorem natDec_ne_nil (n : Nat) : natDec n ≠ [] := by
  rw [natDec_eq_natDecS]
  exact natDecS_ne_nil n

theorem parseDigits_natDecS (n : Nat) : ∀ a : Nat,
    (natDecS n).foldl (fun a c => a * 10 + (c - 48)) a =
      a * 10 ^ (natDecS n).length + n := by
  induction n using Nat.strong_induction_on with
  | _ n ih =>
    intro a
    by_cases h10 : n < 10
    · have h : natDecS n = [48 + n] := by
        rw [natDecS.eq_def, if_pos h10]
      rw [h]
      show a * 10 + (48 + n - 48) = a * 10 ^ 1 + n
      omega
    · have h : natDecS n = natDecS (n / 10) ++ [48 + n % 10] := by
        rw [natDecS.eq_def]
        rw [if_neg h10]
      rw [h, List.foldl_append,
        ih (n / 10) (Nat.div_lt_self (by omega) (by omega)) a]
      show (a * 10 ^ (natDecS (n / 10)).length + n / 10) * 10 +
          (48 + n % 10 - 48) =
        a * 10 ^ (natDecS (n / 10) ++ [48 + n % 10]).length + n
      rw [List.length_append, List.length_singleton, pow_succ,
        Nat.add_sub_cancel_left, Nat.add_mul, mul_assoc, Nat.add_assoc]
      have hdm : n / 10 * 10 + n % 10 = n := by omega
      rw [hdm]

theorem parseDigits_natDec (n : Nat) : parseDigits (natDec n) = n := by
  unfold parseDigits
  rw [natDec_eq_natDecS]
  have := parseDigits_natDecS n 0
  simpa using this

theorem natDec_eq_singleton48 (n : Nat) : natDec n = [48] ↔ n = 0 := by
  rw [natDec_eq_natDecS]
  constructor
  · intro h
    by_cases h10 : n < 10
    · have hs : natDecS n = [48 + n] := by
        rw [natDecS.eq_def, if_pos h10]
      rw [hs] at h
      injection h with h1 _
      omega
    · exfalso
      have hsplit : natDecS n = natDecS (n / 10) ++ [48 + n % 10] := by
        rw [natDecS.eq_def]
        rw [if_neg h10]
      rw [hsplit] at h
      have hlen := congrArg List.length h
      simp at hlen
      exact natDecS_ne_nil (n / 10) hlen
  · rintro rfl
    rw [natDecS.eq_def]
    norm_num

theorem mem_natDec_isDig {n : Nat} : ∀ c ∈ natDec n, isDig c = true := by
  intro c hc
  have := mem_natDec hc
  unfold isDig
  exact decide_eq_true this

theorem takeWhile_digits (A : JStr) (hA : ∀ c ∈ A, isDig c = true)
    (b : Nat) (hb : isDig b = false) (B : JStr) :
    (A ++ b :: B).takeWhile isDig = A ∧
      (A ++ b :: B).dropWhile isDig = b :: B := by
  induction A with
  | nil =>
    simp only [List.nil_append, List.takeWhile_cons, List.dropWhile_cons, hb]
    exact ⟨rfl, rfl⟩
  | cons a A' ih =>
    have ha : isDig a = true := hA a (List.mem_cons_self _ _)
    obtain ⟨ih1, ih2⟩ := ih (fun c hc => hA c (List.mem_cons_of_mem a hc))
    constructor
    · simp only [List.cons_append, List.takeWhile_cons, ha, if_true, ih1]
    · simp only [List.cons_append, List.dropWhile_cons, ha, if_true, ih2]

/-- The scan that `headerMatch` performs on one rendered coordinate: the
digit groups recovered and the input position after the group, together
with the reparse `coordOfGroups` inverting the rendering. -/
theorem coordScan (st : Option Int) (len : Int) (s : Int)
    (hst : st = some s) (hs : 0 ≤ s) (hlen : 0 ≤ len) (R : JStr) :
    ∃ d1 d2 r1,
      (amendCoordC6 st len ++ 32 :: R).takeWhile isDig = d1 ∧
      d1 ≠ [] ∧
      (amendCoordC6 st len ++ 32 :: R).dropWhile isDig = r1 ∧
      (if r1.take 1 = [44] then r1.drop 1 else r1).takeWhile isDig = d2 ∧
      (if r1.take 1 = [44] then r1.drop 1 else r1).dropWhile isDig =
        32 :: R ∧
      coordOfGroups d1 d2 = (s, len) := by
  subst hst
  by_cases h0 : len = 0
  · subst h0
    refine ⟨natDec s.toNat, [48], 44 :: 48 :: 32 :: R, ?_, natDec_ne_nil _,
      ?_, ?_, ?_, ?_⟩
    · have : amendCoordC6 (some s) 0 ++ 32 :: R =
          natDec s.toNat ++ 44 :: 48 :: 32 :: R := by
        show (optIntDec (some s) ++ asc ",0") ++ 32 :: R = _
        show (intDec s ++ [44, 48]) ++ 32 :: R = _
        rw [intDec, if_neg (by omega), List.append_assoc]
        rfl
      rw [this]
      exact (takeWhile_digits _ mem_natDec_isDig 44 (by decide) _).1
    · have : amendCoordC6 (some s) 0 ++ 32 :: R =
          natDec s.toNat ++ 44 :: 48 :: 32 :: R := by
        show (optIntDec (some s) ++ asc ",0") ++ 32 :: R = _
        show (intDec s ++ [44, 48]) ++ 32 :: R = _
        rw [intDec, if_neg (by omega), List.append_assoc]
        rfl
      rw [this]
      exact (takeWhile_digits _ mem_natDec_isDig 44 (by decide) _).2
    · rw [if_pos
        (show List.take 1 (44 :: 48 :: 32 :: R) = [44] from rfl)]
      show ([48] ++ 32 :: R).takeWhile isDig = [48]
      exact (takeWhile_digits [48] (by decide) 32 (by decide) R).1
    · rw [if_pos
        (show List.take 1 (44 :: 48 :: 32 :: R) = [44] from rfl)]
      show ([48] ++ 32 :: R).dropWhile isDig = 32 :: R
      exact (takeWhile_digits [48] (by decide) 32 (by decide) R).2
    · rw [coordOfGroups, if_neg (by decide), if_pos rfl,
        parseDigits_natDec]
      rw [Prod.mk.injEq]
      constructor
      · omega
      · rfl
  · by_cases h1 : len = 1
    · subst h1
      refine ⟨natDec (s + 1).toNat, [], 32 :: R, ?_, natDec_ne_nil _,
        ?_, ?_, ?_, ?_⟩
      · have : amendCoordC6 (some s) 1 ++ 32 :: R =
            natDec (s + 1).toNat ++ 32 :: R := by
          show intDec (s + 1) ++ 32 :: R = _
          rw [intDec, if_neg (by omega)]
        rw [this]
        exact (takeWhile_digits _ mem_natDec_isDig 32 (by decide) _).1
      · have : amendCoordC6 (some s) 1 ++ 32 :: R =
            natDec (s + 1).toNat ++ 32 :: R := by
          show intDec (s + 1) ++ 32 :: R = _
          rw [intDec, if_neg (by omega)]
        rw [this]
        exact (takeWhile_digits _ mem_natDec_isDig 32 (by decide) _).2
      · rw [if_neg (show ¬(List.take 1 (32 :: R) = [44]) by simp)]
        rfl
      · rw [if_neg (show ¬(List.take 1 (32 :: R) = [44]) by simp)]
        rfl
      · rw [coordOfGroups, if_pos rfl, parseDigits_natDec]
        rw [Prod.mk.injEq]
        constructor
        · omega
        · rfl
    · have h2 : ¬len < 2 := by omega
      have hshape : amendCoordC6 (some s) len ++ 32 :: R =
          natDec (s + 1).toNat ++ 44 ::
            (natDec len.toNat ++ 32 :: R) := by
        show (if len = 0 then optIntDec (some s) ++ asc ",0"
          else if len = 1 then intDec (s + 1)
          else intDec (s + 1) ++ asc "," ++ intDec len) ++ 32 :: R = _
        rw [if_neg h0, if_neg h1, intDec, if_neg (by omega), intDec,
          if_neg (by omega), List.append_assoc, List.append_assoc]
        rfl
      refine ⟨natDec (s + 1).toNat, natDec len.toNat,
        44 :: (natDec len.toNat ++ 32 :: R), ?_, natDec_ne_nil _,
        ?_, ?_, ?_, ?_⟩
      · rw [hshape]
        exact (takeWhile_digits _ mem_natDec_isDig 44 (by decide) _).1
      · rw [hshape]
        exact (takeWhile_digits _ mem_natDec_isDig 44 (by decide) _).2
      · rw [if_pos (show List.take 1
          (44 :: (natDec len.toNat ++ 32 :: R)) = [44] from rfl)]
        show (natDec len.toNat ++ 32 :: R).takeWhile isDig = _
        exact (takeWhile_digits _ mem_natDec_isDig 32 (by decide) _).1
      · rw [if_pos (show List.take 1
          (44 :: (natDec len.toNat ++ 32 :: R)) = [44] from rfl)]
        show (natDec len.toNat ++ 32 :: R).dropWhile isDig = _
        exact (takeWhile_digits _ mem_natDec_isDig 32 (by decide) _).2
      · have hne0 : natDec len.toNat ≠ [48] := by
          intro h
          have := (natDec_eq_singleton48 _).1 h
          omega
        rw [coordOfGroups, if_neg (natDec_ne_nil _), if_neg hne0,
          parseDigits_natDec, parseDigits_natDec]
        rw [Prod.mk.injEq]
        constructor
        · omega
        · omega

/-- The rendered header line of a well-formed patch matches the header
pattern, and reparsing it recovers the patch's coordinates exactly. -/
theorem headerMatch_render (p : Patch) (s1 s2 : Int)
    (h1 : p.start1 = some s1) (hs1 : 0 ≤ s1)
    (h2 : p.start2 = some s2) (hs2 : 0 ≤ s2)
    (hl1 : 0 ≤ p.length1) (hl2 : 0 ≤ p.length2) :
    ∃ g, headerMatch (patchHeadLine p) = some g ∧
      patchOfHeader g = { diffs := []
                          start1 := p.start1
                          start2 := p.start2
                          length1 := p.length1
                          length2 := p.length2 } := by
  have ha1 : asc "@@ -" = [64, 64, 32, 45] := by decide
  have ha2 : asc " +" = [32, 43] := by decide
  have ha3 : asc " @@" = [32, 64, 64] := by decide
  have hshape : patchHeadLine p =
      [64, 64, 32, 45] ++ (amendCoordC6 p.start1 p.length1 ++ 32 :: 43 ::
        (amendCoordC6 p.start2 p.length2 ++ 32 :: [64, 64])) := by
    unfold patchHeadLine
    rw [ha1, ha2, ha3, patchCoords1_eq_amend, patchCoords2_eq_amend]
    simp only [List.append_assoc, List.cons_append, List.nil_append]
  obtain ⟨d1, d2, r1, ht1, hne1, hd1, ht2, hd2, hcg1⟩ :=
    coordScan p.start1 p.length1 s1 h1 hs1 hl1
      (43 :: (amendCoordC6 p.start2 p.length2 ++ 32 :: [64, 64]))
  obtain ⟨d3, d4, r5, ht3, hne3, hd3, ht4, hd4, hcg2⟩ :=
    coordScan p.start2 p.length2 s2 h2 hs2 hl2 [64, 64]
  have htake : (patchHeadLine p).take 4 = [64, 64, 32, 45] := by
    rw [hshape]
    rfl
  have hdrop : (patchHeadLine p).drop 4 =
      amendCoordC6 p.start1 p.length1 ++ 32 :: 43 ::
        (amendCoordC6 p.start2 p.length2 ++ 32 :: [64, 64]) := by
    rw [hshape]
    rfl
  refine ⟨(d1, d2, d3, d4), ?_, ?_⟩
  · unfold headerMatch
    rw [htake, if_pos rfl]
    dsimp only
    rw [hdrop, ht1, if_neg hne1, hd1, ht2, hd2]
    rw [if_pos (show List.take 2 (32 :: 43 ::
      (amendCoordC6 p.start2 p.length2 ++ 32 :: [64, 64])) = [32, 43]
      from rfl)]
    rw [show List.drop 2 (32 :: 43 ::
      (amendCoordC6 p.start2 p.length2 ++ 32 :: [64, 64])) =
      amendCoordC6 p.start2 p.length2 ++ 32 :: [64, 64] from rfl]
    rw [ht3, if_neg hne3, hd3, ht4, hd4]
    rw [if_pos rfl]
  · unfold patchOfHeader
    dsimp only
    rw [hcg1, hcg2, h1, h2]

/-! ## Body-line rendering and reparsing (claim C3) -/

theorem patchHeader_eq (p : Patch) :
    patchHeader p = patchHeadLine p ++ [10] := by
  unfold patchHeader patchHeadLine
  simp only [List.append_assoc]

theorem noNL_intDec (i : Int) : ∀ c ∈ intDec i, c ≠ 10 := by
  intro c h
  unfold intDec at h
  by_cases hi : i < 0
  · simp only [hi, if_pos, List.mem_cons] at h
    rcases h with rfl | h
    · omega
    · have := mem_natDec h; omega
  · simp only [hi, if_neg, not_false_iff] at h
    have := mem_natDec h; omega

theorem noNL_optIntDec (o : Option Int) : ∀ c ∈ optIntDec o, c ≠ 10 := by
  intro c h
  rcases o with _ | i
  · simp only [optIntDec, List.mem_cons, List.not_mem_nil, or_false] at h
    rcases h with rfl | rfl | rfl | rfl <;> omega
  · exact noNL_intDec i c h

theorem noNL_amendCoordC6 (st : Option Int) (len : Int) :
    ∀ c ∈ amendCoordC6 st len, c ≠ 10 := by
  intro c h
  unfold amendCoordC6 at h
  rw [show asc ",0" = [44, 48] from by decide,
    show asc "," = [44] from by decide] at h
  split_ifs at h
  · rcases List.mem_append.1 h with h' | h'
    · exact noNL_optIntDec _ c h'
    · simp only [List.mem_cons, List.not_mem_nil, or_false] at h'
      rcases h' with rfl | rfl <;> omega
  · exact noNL_intDec _ c h
  · rcases List.mem_append.1 h with h' | h'
    · rcases List.mem_append.1 h' with h'' | h''
      · exact noNL_intDec _ c h''
      · simp only [List.mem_cons, List.not_mem_nil, or_false] at h''
        subst h''
        omega
    · exact noNL_intDec _ c h'

theorem noNL_patchHeadLine (p : Patch) : ∀ c ∈ patchHeadLine p, c ≠ 10 := by
  intro c h
  unfold patchHeadLine at h
  rw [patchCoords1_eq_amend, patchCoords2_eq_amend,
    show asc "@@ -" = [64, 64, 32, 45] from by decide,
    show asc " +" = [32, 43] from by decide,
    show asc " @@" = [32, 64, 64] from by decide] at h
  simp only [List.append_assoc, List.mem_append] at h
  rcases h with h | h | h | h | h
  · simp only [List.mem_cons, List.not_mem_nil, or_false] at h
    rcases h with rfl | rfl | rfl | rfl <;> omega
  · exact noNL_amendCoordC6 _ _ c h
  · simp only [List.mem_cons, List.not_mem_nil, or_false] at h
    rcases h with rfl | rfl <;> omega
  · exact noNL_amendCoordC6 _ _ c h
  · simp only [List.mem_cons, List.not_mem_nil, or_false] at h
    rcases h with rfl | rfl | rfl <;> omega

theorem noPercent_patchHeadLine (p : Patch) :
    ∀ c ∈ patchHeadLine p, c ≠ 37 := by
  intro c h hc
  subst hc
  exact noPercent_patchHeader p
    (by rw [patchHeader_eq]; exact List.mem_append.2 (Or.inl h))

theorem patchHeadLine_take1 (p : Patch) :
    (patchHeadLine p).take 1 = [64] := by
  have ha1 : asc "@@ -" = [64, 64, 32, 45] := by decide
  unfold patchHeadLine
  rw [ha1]
  rfl

theorem jsubstringFrom_cons (a : Nat) (l : JStr) :
    jsubstringFrom (a :: l) 1 = l := by
  unfold jsubstringFrom jsubstring
  dsimp only
  have e1 : (max 0 (min 1 (((a :: l).length : Nat) : Int))).toNat = 1 := by
    simp only [List.length_cons]
    omega
  have e2 : (max 0 (min (((a :: l).length : Nat) : Int)
      (((a :: l).length : Nat) : Int))).toNat = l.length + 1 := by
    simp only [List.length_cons]
    omega
  rw [e1, e2]
  have e3 : min 1 (l.length + 1) = 1 := by omega
  have e4 : max 1 (l.length + 1) = l.length + 1 := by omega
  rw [e3, e4]
  have e5 : (a :: l).take (l.length + 1) = a :: l := by
    have h : l.length + 1 = (a :: l).length := rfl
    rw [h, List.take_length]
  rw [e5]
  rfl

theorem opSign_ne10 (op : Op) : opSign op ≠ 10 := by
  cases op <;> decide

theorem opSign_ne37 (op : Op) : opSign op ≠ 37 := by
  cases op <;> decide

/-- The one-step equation of the parser's body loop on a nonempty line
list (definitional, stated once so rewrites can target one side). -/
theorem patchBodyGo_cons (l : JStr) (rest : List JStr) (acc : List Diff) :
    patchBodyGo (l :: rest) acc =
      match decodeURI (jsubstringFrom l 1) with
      | none => none
      | some line =>
        if l.take 1 = [45] then patchBodyGo rest (acc ++ [(Op.del, line)])
        else if l.take 1 = [43] then
          patchBodyGo rest (acc ++ [(Op.ins, line)])
        else if l.take 1 = [32] then
          patchBodyGo rest (acc ++ [(Op.eq, line)])
        else if l.take 1 = [64] then some (acc, l :: rest)
        else if l.take 1 = [] then patchBodyGo rest acc
        else none := rfl

/-- The rendered body lines of a diff list: how they come out of the
line split, and the fact that the parser's body loop consumes exactly
them, appending the original diffs. -/
theorem body_render : ∀ (ds : List Diff) (blines : List JStr),
    List.mapM patchBodyLine ds = some blines →
    (∀ d ∈ ds, validUnits d.2) →
    ∃ bls : List JStr,
      (∀ T, splitNL (replaceP20 blines.flatten ++ T) = bls ++ splitNL T) ∧
      (∀ X acc, patchBodyGo (bls ++ X) acc = patchBodyGo X (acc ++ ds)) := by
  intro ds
  induction ds with
  | nil =>
    intro blines h _
    simp only [List.mapM_nil, Option.pure_def, Option.some.injEq] at h
    subst h
    refine ⟨[], fun T => rfl, fun X acc => ?_⟩
    rw [List.nil_append, List.append_nil]
  | cons d ds' ih =>
    obtain ⟨op, txt⟩ := d
    intro blines h hv
    have hvd : validUnits txt := hv (op, txt) (List.mem_cons_self _ _)
    have hv' : ∀ x ∈ ds', validUnits x.2 :=
      fun x hx => hv x (List.mem_cons_of_mem _ hx)
    simp only [List.mapM_cons, Option.pure_def, Option.bind_eq_bind] at h
    rcases Option.bind_eq_some.1 h with ⟨bl, hbl, h2⟩
    rcases Option.bind_eq_some.1 h2 with ⟨bls', hbls', h3⟩
    injection h3 with h3
    subst h3
    unfold patchBodyLine at hbl
    rcases Option.map_eq_some'.1 hbl with ⟨e, he, rfl⟩
    obtain ⟨bls'', hsplit, hgo⟩ := ih bls' hbls' hv'
    have hdec : decodeURI (replaceP20 e) = some txt :=
      decode_replaceP20_enc txt.length txt e (le_refl _) hvd he
    have hflat : replaceP20 ((opSign op :: e ++ [10]) :: bls').flatten =
        (opSign op :: replaceP20 e) ++ 10 :: replaceP20 bls'.flatten := by
      show replaceP20 ((opSign op :: (e ++ [10])) ++ bls'.flatten) = _
      rw [List.cons_append,
        replaceP20_cons_ne _ _ (opSign_ne37 op),
        List.append_assoc,
        show ([10] : JStr) ++ bls'.flatten = 10 :: bls'.flatten from rfl,
        replaceP20_enc_append txt.length txt e (le_refl _) hvd he,
        replaceP20_cons_ne 10 _ (by omega)]
      rfl
    have hline10 : ∀ c ∈ opSign op :: replaceP20 e, c ≠ 10 := by
      intro c hc
      rcases List.mem_cons.1 hc with rfl | hc
      · exact opSign_ne10 op
      · rcases mem_replaceP20 e c hc with h' | rfl
        · exact encodeURI_ne10 hvd he c h'
        · omega
    refine ⟨(opSign op :: replaceP20 e) :: bls'', ?_, ?_⟩
    · intro T
      rw [hflat, List.append_assoc,
        show (10 :: replaceP20 bls'.flatten) ++ T =
          10 :: (replaceP20 bls'.flatten ++ T) from rfl,
        splitNL_append _ _ hline10, hsplit T]
      rfl
    · intro X acc
      rw [List.cons_append, patchBodyGo_cons, jsubstringFrom_cons, hdec]
      dsimp only
      cases op
      · rw [if_pos (show List.take 1 (opSign Op.del :: replaceP20 e) = [45]
          from rfl)]
        rw [hgo X (acc ++ [(Op.del, txt)]), List.append_assoc]
        rfl
      · rw [if_neg (show ¬(List.take 1 (opSign Op.ins :: replaceP20 e) = [45])
          by simp [opSign])]
        rw [if_pos (show List.take 1 (opSign Op.ins :: replaceP20 e) = [43]
          from rfl)]
        rw [hgo X (acc ++ [(Op.ins, txt)]), List.append_assoc]
        rfl
      · rw [if_neg (show ¬(List.take 1 (opSign Op.eq :: replaceP20 e) = [45])
          by simp [opSign])]
        rw [if_neg (show ¬(List.take 1 (opSign Op.eq :: replaceP20 e) = [43])
          by simp [opSign])]
        rw [if_pos (show List.take 1 (opSign Op.eq :: replaceP20 e) = [32]
          from rfl)]
        rw [hgo X (acc ++ [(Op.eq, txt)]), List.append_assoc]
        rfl

/-- Destructuring of a successful `mapM` on a nonempty list. -/
theorem mapM_cons_some {α β : Type _} (f : α → Option β) (x : α)
    (xs : List α) (ys : List β) (h : List.mapM f (x :: xs) = some ys) :
    ∃ y ys', f x = some y ∧ List.mapM f xs = some ys' ∧ ys = y :: ys' := by
  simp only [List.mapM_cons, Option.pure_def, Option.bind_eq_bind] at h
  rcases Option.bind_eq_some.1 h with ⟨y, hy, h2⟩
  rcases Option.bind_eq_some.1 h2 with ⟨ys', hys', h3⟩
  injection h3 with h3
  exact ⟨y, ys', hy, hys', h3.symm⟩

/-- One successful `Patch.toString`, seen through the line splitter: the
header line, then body lines that the parser's body loop consumes while
appending exactly the patch's diffs. -/
theorem patch_lines (p : Patch) (str : JStr)
    (hv : ∀ d ∈ p.diffs, validUnits d.2)
    (h : patchToString p = some str) :
    ∃ bls : List JStr,
      (∀ T, splitNL (str ++ T) = patchHeadLine p :: (bls ++ splitNL T)) ∧
      (∀ X acc, patchBodyGo (bls ++ X) acc = patchBodyGo X (acc ++ p.diffs))
    := by
  unfold patchToString at h
  rcases hb : p.diffs.mapM patchBodyLine with _ | blines
  · rw [hb] at h
    cases h
  · rw [hb] at h
    simp only [Option.map_some', Option.some.injEq] at h
    subst h
    obtain ⟨bls, hsplit, hgo⟩ := body_render p.diffs blines hb hv
    refine ⟨bls, ?_, hgo⟩
    intro T
    rw [replaceP20_append_of_noPercent _ _ (noPercent_patchHeader p),
      patchHeader_eq, List.append_assoc, List.append_assoc,
      show ([10] : JStr) ++ (replaceP20 blines.flatten ++ T) =
        10 :: (replaceP20 blines.flatten ++ T) from rfl,
      splitNL_append _ _ (noNL_patchHeadLine p), hsplit T]

/-- One-step equation of the outer parser loop (definitional). -/
theorem fromTextGo_cons (fuel : Nat) (l : JStr) (rest : List JStr) :
    fromTextGo (fuel + 1) (l :: rest) =
      match headerMatch l with
      | none => none
      | some g =>
        match patchBodyGo rest [] with
        | none => none
        | some (ds, remaining) =>
          match fromTextGo fuel remaining with
          | none => none
          | some ps => some ({ patchOfHeader g with diffs := ds } :: ps) :=
  rfl

theorem fromTextGo_nil (f : Nat) : fromTextGo f [] = some [] := by
  cases f <;> rfl

/-- The body loop skips the final blank line and stops at the end. -/
theorem patchBodyGo_blank (acc : List Diff) :
    patchBodyGo [[]] acc = some (acc, []) := by
  rw [patchBodyGo_cons,
    show decodeURI (jsubstringFrom ([] : JStr) 1) = some [] from rfl]
  dsimp only
  rw [if_neg (show ¬(List.take 1 ([] : JStr) = [45]) by decide),
    if_neg (show ¬(List.take 1 ([] : JStr) = [43]) by decide),
    if_neg (show ¬(List.take 1 ([] : JStr) = [32]) by decide),
    if_neg (show ¬(List.take 1 ([] : JStr) = [64]) by decide),
    if_pos (show List.take 1 ([] : JStr) = [] from rfl)]
  rfl

/-- The body loop hands a following header line back to the outer loop
untouched. -/
theorem patchBodyGo_header (q : Patch) (rest : List JStr)
    (acc : List Diff) :
    patchBodyGo (patchHeadLine q :: rest) acc =
      some (acc, patchHeadLine q :: rest) := by
  have hht : patchHeadLine q = 64 :: ([64, 32, 45] ++ patchCoords1 q ++
      [32, 43] ++ patchCoords2 q ++ [32, 64, 64]) := by
    unfold patchHeadLine
    rw [show asc "@@ -" = [64, 64, 32, 45] from by decide,
      show asc " +" = [32, 43] from by decide,
      show asc " @@" = [32, 64, 64] from by decide]
    simp only [List.append_assoc, List.cons_append, List.nil_append]
  have hnp : ∀ c ∈ [64, 32, 45] ++ patchCoords1 q ++ [32, 43] ++
      patchCoords2 q ++ [32, 64, 64], c ≠ 37 := by
    intro c hc
    apply noPercent_patchHeadLine q c
    rw [hht]
    exact List.mem_cons_of_mem _ hc
  rw [hht, patchBodyGo_cons, jsubstringFrom_cons, decodeURI_noPercent _ hnp]
  dsimp only
  rw [if_neg (show ¬(List.take 1 ((64 : Nat) :: ([64, 32, 45] ++
      patchCoords1 q ++ [32, 43] ++ patchCoords2 q ++ [32, 64, 64])) = [45])
      by simp),
    if_neg (show ¬(List.take 1 ((64 : Nat) :: ([64, 32, 45] ++
      patchCoords1 q ++ [32, 43] ++ patchCoords2 q ++ [32, 64, 64])) = [43])
      by simp),
    if_neg (show ¬(List.take 1 ((64 : Nat) :: ([64, 32, 45] ++
      patchCoords1 q ++ [32, 43] ++ patchCoords2 q ++ [32, 64, 64])) = [32])
      by simp),
    if_pos (show List.take 1 ((64 : Nat) :: ([64, 32, 45] ++
      patchCoords1 q ++ [32, 43] ++ patchCoords2 q ++ [32, 64, 64])) = [64]
      from rfl)]

/-- The outer parser loop, run on the lines rendered from a nonempty list
of well-formed patches, reconstructs exactly those patches. -/
theorem fromText_render : ∀ (ps : List Patch) (p0 : Patch)
    (strs : List JStr) (fuel : Nat),
    (∀ q ∈ p0 :: ps, patchRT q) →
    List.mapM patchToString (p0 :: ps) = some strs →
    (splitNL strs.flatten).length < fuel →
    fromTextGo fuel (splitNL strs.flatten) = some (p0 :: ps) := by
  intro ps
  induction ps with
  | nil =>
    intro p0 strs fuel hrt hmap hfuel
    obtain ⟨str, strs', hstr, hnil', rfl⟩ := mapM_cons_some _ _ _ _ hmap
    have hstrs' : strs' = [] := by
      simp only [List.mapM_nil, Option.pure_def, Option.some.injEq] at hnil'
      exact hnil'.symm
    subst hstrs'
    obtain ⟨⟨s1, h1, hs1⟩, ⟨s2, h2, hs2⟩, hl1, hl2, hdv⟩ :=
      hrt p0 (List.mem_cons_self _ _)
    obtain ⟨bls, hsplit, hgo⟩ := patch_lines p0 str hdv hstr
    have hflt : (([str] : List JStr)).flatten = str ++ [] := rfl
    rw [hflt, hsplit []] at hfuel ⊢
    rcases fuel with _ | f
    · omega
    obtain ⟨g, hg, hpg⟩ := headerMatch_render p0 s1 s2 h1 hs1 h2 hs2 hl1 hl2
    rw [fromTextGo_cons, hg]
    dsimp only
    rw [hgo (splitNL []) [], List.nil_append,
      show splitNL ([] : JStr) = [[]] from rfl, patchBodyGo_blank p0.diffs]
    dsimp only
    rw [fromTextGo_nil f]
    dsimp only
    rw [hpg]
  | cons q ps'' ih =>
    intro p0 strs fuel hrt hmap hfuel
    obtain ⟨str, strs', hstr, hrest, rfl⟩ := mapM_cons_some _ _ _ _ hmap
    obtain ⟨⟨s1, h1, hs1⟩, ⟨s2, h2, hs2⟩, hl1, hl2, hdv⟩ :=
      hrt p0 (List.mem_cons_self _ _)
    obtain ⟨bls, hsplit, hgo⟩ := patch_lines p0 str hdv hstr
    have hrt' : ∀ x ∈ q :: ps'', patchRT x :=
      fun x hx => hrt x (List.mem_cons_of_mem _ hx)
    obtain ⟨strq, strs'', hstrq, hrest'', rfl⟩ := mapM_cons_some _ _ _ _ hrest
    have hdvq : ∀ d ∈ q.diffs, validUnits d.2 :=
      (hrt' q (List.mem_cons_self _ _)).2.2.2.2
    obtain ⟨blsq, hsplitq, hgoq⟩ := patch_lines q strq hdvq hstrq
    have hflt : ((str :: strq :: strs'').flatten : JStr) =
        str ++ (strq :: strs'').flatten := rfl
    rw [hflt, hsplit ((strq :: strs'').flatten)] at hfuel ⊢
    rcases fuel with _ | f
    · omega
    obtain ⟨g, hg, hpg⟩ := headerMatch_render p0 s1 s2 h1 hs1 h2 hs2 hl1 hl2
    rw [fromTextGo_cons, hg]
    dsimp only
    rw [hgo (splitNL ((strq :: strs'').flatten)) [], List.nil_append]
    have hfltq : ((strq :: strs'').flatten : JStr) =
        strq ++ strs''.flatten := rfl
    rw [hfltq, hsplitq (strs''.flatten), patchBodyGo_header q _ p0.diffs]
    dsimp only
    have hfuel' : (splitNL ((strq :: strs'').flatten)).length < f := by
      simp only [List.length_cons, List.length_append, hfltq,
        hsplitq (strs''.flatten)] at hfuel ⊢
      omega
    have hIH := ih q (strq :: strs'') f hrt' hrest hfuel'
    rw [hfltq, hsplitq (strs''.flatten)] at hIH
    rw [hIH]
    dsimp only
    rw [hpg]

/-! ## Well-formedness of `patch_make` output (claim C3) -/

theorem validUnits_append {a b : JStr} (ha : validUnits a)
    (hb : validUnits b) : validUnits (a ++ b) := by
  intro c hc
  rcases List.mem_append.1 hc with h | h
  · exact ha c h
  · exact hb c h

theorem validUnits_take (n : Nat) {l : JStr} (h : validUnits l) :
    validUnits (l.take n) := fun c hc => h c (List.mem_of_mem_take hc)

theorem validUnits_drop (n : Nat) {l : JStr} (h : validUnits l) :
    validUnits (l.drop n) := fun c hc => h c (List.mem_of_mem_drop hc)

/-- Well-formedness of the patch structure `patch_addContext_` builds,
abstracted over the extracted context strings. -/
theorem addContext_struct_RT (patch : Patch) (k : Int) (pre suf : JStr)
    (h1 : patch.start1 = some k) (hk : 0 ≤ k)
    (hl1 : 0 ≤ patch.length1) (hl2 : 0 ≤ patch.length2)
    (hd : ∀ d ∈ patch.diffs, validUnits d.2)
    (hpre : validUnits pre) (hsuf : validUnits suf)
    (hplen : (pre.length : Int) ≤ k) :
    patchRT
      { diffs :=
          if suf ≠ [] then
            (if pre ≠ [] then (Op.eq, pre) :: patch.diffs
              else patch.diffs) ++ [(Op.eq, suf)]
          else if pre ≠ [] then (Op.eq, pre) :: patch.diffs
          else patch.diffs
        start1 := some (patch.start1.getD 0 - pre.length)
        start2 := some (k - pre.length)
        length1 := patch.length1 + pre.length + suf.length
        length2 := patch.length2 + pre.length + suf.length } := by
  unfold patchRT
  dsimp only
  refine ⟨⟨_, rfl, ?_⟩, ⟨_, rfl, ?_⟩, ?_, ?_, ?_⟩
  · rw [h1]
    simp only [Option.getD_some]
    omega
  · omega
  · omega
  · omega
  · intro d hdm
    split_ifs at hdm with hs hp hp'
    · rcases List.mem_append.1 hdm with h' | h'
      · rcases List.mem_cons.1 h' with rfl | h'
        · exact hpre
        · exact hd d h'
      · rcases List.mem_cons.1 h' with rfl | h'
        · exact hsuf
        · cases h'
    · rcases List.mem_append.1 hdm with h' | h'
      · exact hd d h'
      · rcases List.mem_cons.1 h' with rfl | h'
        · exact hsuf
        · cases h'
    · rcases List.mem_cons.1 hdm with rfl | h'
      · exact hpre
      · exact hd d h'
    · exact hd d hdm

/-- `patch_addContext_` preserves well-formedness: given an open patch
with equal non-negative starts, the contextualised patch is
round-trippable. -/
theorem patch_addContext_RT (patch : Patch) (text : JStr) (k : Int)
    (h1 : patch.start1 = some k) (h2 : patch.start2 = some k) (hk : 0 ≤ k)
    (hl1 : 0 ≤ patch.length1) (hl2 : 0 ≤ patch.length2)
    (hd : ∀ d ∈ patch.diffs, validUnits d.2) (ht : validUnits text)
    (p' : Patch) (h : patch_addContext_ patch text = some p') :
    patchRT p' := by
  unfold patch_addContext_ at h
  split_ifs at h with htext
  · injection h with h
    subst h
    exact ⟨⟨k, h1, hk⟩, ⟨k, h2, hk⟩, hl1, hl2, hd⟩
  · rw [h2] at h
    dsimp only at h
    injection h with h
    subst h
    refine addContext_struct_RT patch k _ _ h1 hk hl1 hl2 hd ?_ ?_ ?_
    · exact fun c hc => ht c (mem_jsubstring hc)
    · exact fun c hc => ht c (mem_jsubstring hc)
    · exact jsubstring_length_le text _ k hk (by omega)

/-- One step of the `patch_make` loop preserves the loop invariant. -/
theorem patch_makeStep_inv (d : Diff) (nl : Bool) (st st' : MakeState)
    (hd : validUnits d.2) (hst : mkInv st)
    (h : patch_makeStep d nl st = some st') : mkInv st' := by
  obtain ⟨hpatches, hpre, hpost, hdiffs, hL1, hL2, hcc, hopen⟩ := hst
  obtain ⟨op, txt⟩ := d
  unfold patch_makeStep at h
  dsimp only at h
  by_cases hstart : st.patch.diffs = [] ∧ (op, txt).1 ≠ Op.eq
  · rw [if_pos hstart] at h
    have hcceq : st.cc1 = st.cc2 := hcc hstart.1
    cases op
    · -- delete, patch freshly opened
      dsimp only at h
      injection h with h
      subst h
      refine ⟨hpatches, hpre, ?_, ?_, by dsimp only; omega,
        by dsimp only; omega, ?_, ?_⟩
      · exact validUnits_append (validUnits_take _ hpost)
          (validUnits_drop _ hpost)
      · intro x hx
        dsimp only at hx
        rcases List.mem_append.1 hx with h' | h'
        · exact hdiffs x h'
        · rcases List.mem_cons.1 h' with rfl | h'
          · exact hd
          · cases h'
      · intro hemp
        dsimp only at hemp
        exact absurd hemp (by simp)
      · intro _
        refine ⟨(st.cc2 : Int), ?_, ?_, by omega⟩
        · dsimp only
          rw [hcceq]
        · dsimp only
    · -- insert, patch freshly opened
      dsimp only at h
      injection h with h
      subst h
      refine ⟨hpatches, hpre, ?_, ?_, by dsimp only; omega,
        by dsimp only; omega, ?_, ?_⟩
      · exact validUnits_append
          (validUnits_append (validUnits_take _ hpost) hd)
          (validUnits_drop _ hpost)
      · intro x hx
        dsimp only at hx
        rcases List.mem_append.1 hx with h' | h'
        · exact hdiffs x h'
        · rcases List.mem_cons.1 h' with rfl | h'
          · exact hd
          · cases h'
      · intro hemp
        dsimp only at hemp
        exact absurd hemp (by simp)
      · intro _
        refine ⟨(st.cc2 : Int), ?_, ?_, by omega⟩
        · dsimp only
          rw [hcceq]
        · dsimp only
    · -- equality contradicts the opening condition
      exact absurd rfl hstart.2
  · rw [if_neg hstart] at h
    cases op
    · -- delete on an already open patch
      dsimp only at h
      injection h with h
      subst h
      have hne : st.patch.diffs ≠ [] := fun hemp =>
        hstart ⟨hemp, by simp⟩
      obtain ⟨k, hk1, hk2, hk0⟩ := hopen hne
      refine ⟨hpatches, hpre, ?_, ?_, by dsimp only; omega,
        by dsimp only; omega, ?_, ?_⟩
      · exact validUnits_append (validUnits_take _ hpost)
          (validUnits_drop _ hpost)
      · intro x hx
        dsimp only at hx
        rcases List.mem_append.1 hx with h' | h'
        · exact hdiffs x h'
        · rcases List.mem_cons.1 h' with rfl | h'
          · exact hd
          · cases h'
      · intro hemp
        dsimp only at hemp
        exact absurd hemp (by simp)
      · intro _
        exact ⟨k, hk1, hk2, hk0⟩
    · -- insert on an already open patch
      dsimp only at h
      injection h with h
      subst h
      have hne : st.patch.diffs ≠ [] := fun hemp =>
        hstart ⟨hemp, by simp⟩
      obtain ⟨k, hk1, hk2, hk0⟩ := hopen hne
      refine ⟨hpatches, hpre, ?_, ?_, by dsimp only; omega,
        by dsimp only; omega, ?_, ?_⟩
      · exact validUnits_append
          (validUnits_append (validUnits_take _ hpost) hd)
          (validUnits_drop _ hpost)
      · intro x hx
        dsimp only at hx
        rcases List.mem_append.1 hx with h' | h'
        · exact hdiffs x h'
        · rcases List.mem_cons.1 h' with rfl | h'
          · exact hd
          · cases h'
      · intro hemp
        dsimp only at hemp
        exact absurd hemp (by simp)
      · intro _
        exact ⟨k, hk1, hk2, hk0⟩
    · -- equality
      dsimp only at h
      split_ifs at h with hsmall hbig hne
      · -- small equality folded into the open patch
        injection h with h
        subst h
        obtain ⟨k, hk1, hk2, hk0⟩ := hopen hsmall.2.1
        refine ⟨hpatches, hpre, hpost, ?_, by dsimp only; omega,
          by dsimp only; omega, ?_, ?_⟩
        · intro x hx
          dsimp only at hx
          rcases List.mem_append.1 hx with h' | h'
          · exact hdiffs x h'
          · rcases List.mem_cons.1 h' with rfl | h'
            · exact hd
            · cases h'
        · intro hemp
          dsimp only at hemp
          exact absurd hemp (by simp)
        · intro _
          exact ⟨k, hk1, hk2, hk0⟩
      · -- large equality closing the open patch
        rcases hctx : patch_addContext_ st.patch st.prepatch with _ | p'
        · rw [hctx] at h
          cases h
        · rw [hctx] at h
          dsimp only at h
          injection h with h
          subst h
          obtain ⟨k, hk1, hk2, hk0⟩ := hopen hne
          refine ⟨?_, hpost, hpost, ?_, le_refl (0 : Int), le_refl (0 : Int),
            fun _ => rfl, ?_⟩
          · intro p hp
            rcases List.mem_append.1 hp with h' | h'
            · exact hpatches p h'
            · rcases List.mem_cons.1 h' with rfl | h'
              · exact patch_addContext_RT st.patch st.prepatch k hk1 hk2
                  hk0 hL1 hL2 hdiffs hpre p hctx
              · cases h'
          · intro x hx
            cases hx
          · intro hemp
            exact absurd rfl hemp
      · -- large equality with no open patch
        injection h with h
        subst h
        refine ⟨hpatches, hpre, hpost, hdiffs, hL1, hL2, ?_, hopen⟩
        intro hemp
        have := hcc hemp
        dsimp only
        omega
      · -- small equality outside any patch
        injection h with h
        subst h
        refine ⟨hpatches, hpre, hpost, hdiffs, hL1, hL2, ?_, hopen⟩
        intro hemp
        have := hcc hemp
        dsimp only
        omega

/-- The `patch_make` loop preserves the invariant. -/
theorem patch_makeGo_inv : ∀ (ds : List Diff) (st st' : MakeState),
    (∀ d ∈ ds, validUnits d.2) → mkInv st →
    patch_makeGo ds st = some st' → mkInv st' := by
  intro ds
  induction ds with
  | nil =>
    intro st st' _ hst h
    injection h with h
    subst h
    exact hst
  | cons d rest ih =>
    intro st st' hv hst h
    unfold patch_makeGo at h
    cases hstep : patch_makeStep d (decide (rest ≠ [])) st with
    | none =>
      rw [hstep] at h
      cases h
    | some st₁ =>
      rw [hstep] at h
      exact ih st₁ st' (fun x hx => hv x (List.mem_cons_of_mem _ hx))
        (patch_makeStep_inv d _ st st₁ (hv d (List.mem_cons_self _ _))
          hst hstep) h

/-- Every patch returned by `patch_make` is well-formed. -/
theorem patch_make_valid (text1 : JStr) (ds : List Diff) (ps : List Patch)
    (ht : validUnits text1) (hv : ∀ d ∈ ds, validUnits d.2)
    (h : patch_make_core text1 ds = some ps) : ∀ p ∈ ps, patchRT p := by
  unfold patch_make_core at h
  split_ifs at h with hnil
  · injection h with h
    subst h
    intro p hp
    cases hp
  · cases hgo : patch_makeGo ds
        { patches := []
          patch := {}
          cc1 := 0
          cc2 := 0
          prepatch := text1
          postpatch := text1 } with
    | none =>
      rw [hgo] at h
      cases h
    | some st =>
      rw [hgo] at h
      dsimp only at h
      have hinit : mkInv
          { patches := []
            patch := {}
            cc1 := 0
            cc2 := 0
            prepatch := text1
            postpatch := text1 } := by
        refine ⟨?_, ht, ht, ?_, le_refl (0 : Int), le_refl (0 : Int),
          fun _ => rfl, ?_⟩
        · intro p hp
          cases hp
        · intro x hx
          cases hx
        · intro hemp
          exact absurd rfl hemp
      have hinv := patch_makeGo_inv ds _ st hv hinit hgo
      obtain ⟨hpatches, hpre, hpost, hdiffs, hL1, hL2, hcc, hopen⟩ := hinv
      split_ifs at h with hne
      · rcases Option.map_eq_some'.1 h with ⟨p', hp', rfl⟩
        obtain ⟨k, h1, h2, hk⟩ := hopen hne
        intro p hp
        rcases List.mem_append.1 hp with hp | hp
        · exact hpatches p hp
        · rcases List.mem_cons.1 hp with rfl | hp
          · exact patch_addContext_RT st.patch st.prepatch k h1 h2 hk
              hL1 hL2 hdiffs hpre p hp'
          · cases hp
      · injection h with h
        subst h
        exact hpatches

/-- **C3** counterexample.  The claim asserts
`patch_fromText (patch_toText ps) = ps` for every `ps` produced by
`patch_make`; but `patch_make` applied to the diff
`[(eq, "x"), (del, "\uD83D")]` produces a patch whose delete text is a
lone lead surrogate, on which `encodeURI` throws inside `patch_toText`,
so the round-trip equation does not even evaluate. -/
theorem claim_C3_counterexample :
    patch_make2 [(Op.eq, [120]), (Op.del, [55357])] = some [pC3] ∧
    patch_toText [pC3] = none :=
  ⟨by decide, by decide⟩

/-- **C3** (amended): for every patch list produced by `patch_make`
(from a source text and diff texts made of genuine UTF-16 code units)
on which `patch_toText` succeeds, `patch_fromText` parses the rendered
text back to exactly the original patch list. -/
theorem claim_C3 (text1 : JStr) (ds : List Diff) (ps : List Patch)
    (txt : JStr) (hv1 : validUnits text1)
    (hv2 : ∀ d ∈ ds, validUnits d.2)
    (hmk : patch_make_core text1 ds = some ps)
    (htxt : patch_toText ps = some txt) :
    patch_fromText txt = some ps := by
  have hrt : ∀ p ∈ ps, patchRT p := patch_make_valid text1 ds ps hv1 hv2 hmk
  unfold patch_toText at htxt
  rcases hmap : List.mapM patchToString ps with _ | strs
  · rw [hmap] at htxt
    cases htxt
  · rw [hmap] at htxt
    simp only [Option.map_some', Option.some.injEq] at htxt
    subst htxt
    rcases ps with _ | ⟨p0, ps'⟩
    · have hs : strs = [] := by
        simp only [List.mapM_nil, Option.pure_def, Option.some.injEq] at hmap
        exact hmap.symm
      subst hs
      rfl
    · obtain ⟨str, strs', hstr, hrest, rfl⟩ := mapM_cons_some _ _ _ _ hmap
      have hdv : ∀ d ∈ p0.diffs, validUnits d.2 :=
        (hrt p0 (List.mem_cons_self _ _)).2.2.2.2
      obtain ⟨bls, hsplit, hgo⟩ := patch_lines p0 str hdv hstr
      have hne : ((str :: strs').flatten : JStr) ≠ [] := by
        intro hfl
        have hfl' : str ++ strs'.flatten = ([] : JStr) := hfl
        have hstr0 : str = [] := (List.append_eq_nil.1 hfl').1
        have hx := hsplit []
        rw [hstr0] at hx
        have hx' : ([[]] : List JStr) =
            patchHeadLine p0 :: (bls ++ [[]]) := hx
        injection hx' with hh _
        have ht1 := patchHeadLine_take1 p0
        rw [← hh] at ht1
        exact absurd ht1 (by decide)
      unfold patch_fromText
      rw [if_neg hne]
      exact fromText_render ps' p0 (str :: strs') _ hrt hmap (by omega)

/-- Concrete instance of the C3 round-trip: the patches made from the
one-character edit `a → b` render to `@@ -1 +1 @@\n-a\n+b\n` and parse
back to themselves. -/
theorem claim_C3_witness :
    patch_fromText (asc "@@ -1 +1 @@" ++ [10] ++ asc "-a" ++ [10] ++
      asc "+b" ++ [10]) =
      some [{ diffs := [(Op.del, [97]), (Op.ins, [98])]
              start1 := some 0
              start2 := some 0
              length1 := 1
              length2 := 1 }] :=
  claim_C3 [97] [(Op.del, [97]), (Op.ins, [98])]
    [{ diffs := [(Op.del, [97]), (Op.ins, [98])]
       start1 := some 0
       start2 := some 0
       length1 := 1
       length2 := 1 }]
    (asc "@@ -1 +1 @@" ++ [10] ++ asc "-a" ++ [10] ++ asc "+b" ++ [10])
    (by decide) (by decide) (by decide) (by decide)

/-! ## Claim C5: the `diff_cleanupMerge` invariant -/

/-- `Chain'` survives dropping the last element. -/
theorem chain'_dropLast {l : List Diff} (h : List.Chain' pairOK l) :
    List.Chain' pairOK l.dropLast := by
  induction l with
  | nil => exact List.chain'_nil
  | cons x xs ih =>
    cases xs with
    | nil => exact List.chain'_nil
    | cons y ys =>
      rw [List.dropLast_cons₂]
      rw [List.chain'_cons'] at h ⊢
      refine ⟨?_, ih h.2⟩
      intro z hz
      apply h.1
      cases ys with
      | nil => simp at hz
      | cons w ws =>
        simp only [List.dropLast_cons₂, List.head?_cons] at hz
        simp only [List.head?_cons]
        exact hz

theorem pairOK_eq_left {x y : Diff} (h : x.1 = Op.eq) : pairOK x y := by
  simp [pairOK, h]

theorem pairOK_eq_right {x y : Diff} (h : y.1 = Op.eq) : pairOK x y := by
  simp [pairOK, h]

theorem mem_of_getLast?_eq : ∀ {l : List Diff} {a : Diff},
    l.getLast? = some a → a ∈ l
  | [], _, h => by cases h
  | [x], a, h => by
    rw [List.getLast?_singleton] at h
    injection h with h
    subst h
    exact List.mem_cons_self _ _
  | x :: y :: r, a, h => by
    rw [List.getLast?_cons_cons] at h
    exact List.mem_cons_of_mem _ (mem_of_getLast?_eq h)

/-- The record block emitted when a segment is closed keeps the edit
adjacency discipline, whatever the texts are. -/
theorem chain'_block (A : List Diff) (hA : List.Chain' pairOK A)
    (hAlast : ∀ x ∈ A.getLast?, x.1 = Op.eq) (td ti tc : JStr) :
    List.Chain' pairOK (A ++
      (if td ≠ [] then [(Op.del, td)] else []) ++
      (if ti ≠ [] then [(Op.ins, ti)] else []) ++ [(Op.eq, tc)]) := by
  rw [List.append_assoc, List.append_assoc, List.chain'_append]
  refine ⟨hA, ?_, ?_⟩
  · split_ifs with hd hi hi
    · simp only [List.cons_append, List.nil_append]
      refine List.chain'_cons.2 ⟨?_, List.chain'_cons.2 ⟨?_, ?_⟩⟩
      · simp [pairOK]
      · exact pairOK_eq_right rfl
      · exact List.chain'_singleton _
    · simp only [List.cons_append, List.nil_append]
      exact List.chain'_cons.2 ⟨pairOK_eq_right rfl, List.chain'_singleton _⟩
    · simp only [List.cons_append, List.nil_append]
      exact List.chain'_cons.2 ⟨pairOK_eq_right rfl, List.chain'_singleton _⟩
    · simp only [List.nil_append]
      exact List.chain'_singleton _
  · intro x hx y _
    exact pairOK_eq_left (hAlast x hx)

/-- The closed block ends with an equality. -/
theorem block_lastEq (A : List Diff) (td ti tc : JStr) :
    ∀ x ∈ (A ++ (if td ≠ [] then [(Op.del, td)] else []) ++
      (if ti ≠ [] then [(Op.ins, ti)] else []) ++
      [(Op.eq, tc)]).getLast?, x.1 = Op.eq := by
  intro x hx
  rw [List.getLast?_concat] at hx
  simp only [Option.mem_def, Option.some.injEq] at hx
  subst hx
  rfl

/-- Pass 1 of `diff_cleanupMerge` produces a record list obeying the edit
adjacency discipline, provided the remaining input ends with an equality
(the dummy record guarantees this). -/
theorem mergeP1_alt : ∀ (rest : List Diff) (done seg : List Diff)
    (cd ci : Nat) (td ti : JStr),
    List.Chain' pairOK done →
    (∀ x ∈ done.getLast?, x.1 = Op.eq) →
    (∀ x ∈ seg, x.1 ≠ Op.eq) →
    seg.length = cd + ci →
    (rest ≠ [] → ∃ tz, rest.getLast? = some (Op.eq, tz)) →
    (rest = [] → seg = []) →
    List.Chain' pairOK (mergeP1 done seg cd ci td ti rest) := by
  intro rest
  induction rest with
  | nil =>
    intro done seg cd ci td ti hch hlast hseg hlen hend hnil
    rw [hnil rfl]
    show List.Chain' pairOK (done ++ [])
    rw [List.append_nil]
    exact hch
  | cons x r ih =>
    intro done seg cd ci td ti hch hlast hseg hlen hend hnil
    obtain ⟨op, t⟩ := x
    obtain ⟨tz, htz⟩ := hend (by simp)
    have hendr : r ≠ [] → ∃ tz', r.getLast? = some (Op.eq, tz') := by
      intro hr
      rcases r with _ | ⟨y, r'⟩
      · exact absurd rfl hr
      · rw [List.getLast?_cons_cons] at htz
        exact ⟨tz, htz⟩
    cases op
    · -- delete arm
      rcases r with _ | ⟨y, r'⟩
      · rw [List.getLast?_singleton] at htz
        injection htz with htz
        injection htz with htz _
        cases htz
      · show List.Chain' pairOK (mergeP1 done (seg ++ [(Op.del, t)])
          (cd + 1) ci (td ++ t) ti (y :: r'))
        apply ih done _ _ _ _ _ hch hlast ?_ ?_ hendr ?_
        · intro z hz
          rcases List.mem_append.1 hz with hz | hz
          · exact hseg z hz
          · rcases List.mem_cons.1 hz with rfl | hz
            · simp
            · cases hz
        · simp [hlen]
          omega
        · intro hcontra
          cases hcontra
    · -- insert arm
      rcases r with _ | ⟨y, r'⟩
      · rw [List.getLast?_singleton] at htz
        injection htz with htz
        injection htz with htz _
        cases htz
      · show List.Chain' pairOK (mergeP1 done (seg ++ [(Op.ins, t)])
          cd (ci + 1) td (ti ++ t) (y :: r'))
        apply ih done _ _ _ _ _ hch hlast ?_ ?_ hendr ?_
        · intro z hz
          rcases List.mem_append.1 hz with hz | hz
          · exact hseg z hz
          · rcases List.mem_cons.1 hz with rfl | hz
            · simp
            · cases hz
        · simp [hlen]
          omega
        · intro hcontra
          cases hcontra
    · -- equality arm
      have step : ∀ (A : List Diff) (td2 ti2 tc : JStr),
          List.Chain' pairOK A → (∀ x ∈ A.getLast?, x.1 = Op.eq) →
          List.Chain' pairOK (mergeP1 (A ++
            (if td2 ≠ [] then [(Op.del, td2)] else []) ++
            (if ti2 ≠ [] then [(Op.ins, ti2)] else []) ++
            [(Op.eq, tc)]) [] 0 0 [] [] r) := by
        intro A td2 ti2 tc hA hAl
        apply ih _ [] 0 0 [] [] (chain'_block A hA hAl td2 ti2 tc)
          (block_lastEq A td2 ti2 tc) ?_ rfl hendr (fun _ => rfl)
        intro z hz
        cases hz
      have stepEq : ∀ (A : List Diff), List.Chain' pairOK A →
          ∀ tc, List.Chain' pairOK (mergeP1 (A ++ [(Op.eq, tc)])
            [] 0 0 [] [] r) := by
        intro A hA tc
        apply ih _ [] 0 0 [] [] ?_ ?_ ?_ rfl hendr (fun _ => rfl)
        · rw [List.chain'_append]
          refine ⟨hA, List.chain'_singleton _, ?_⟩
          intro x _ y hy
          simp only [List.head?_cons, Option.mem_def, Option.some.injEq] at hy
          subst hy
          exact pairOK_eq_right rfl
        · intro x hx
          rw [List.getLast?_concat] at hx
          simp only [Option.mem_def, Option.some.injEq] at hx
          subst hx
          rfl
        · intro z hz
          cases hz
      show List.Chain' pairOK (mergeP1 done seg cd ci td ti ((Op.eq, t) :: r))
      unfold mergeP1
      by_cases h1 : 1 < cd + ci
      · rw [if_pos h1]
        by_cases h2 : cd ≠ 0 ∧ ci ≠ 0
        · rw [if_pos h2]
          dsimp only
          by_cases hpl : diff_commonPrefixLen ti td ≠ 0
          · rw [if_pos hpl]
            rcases hgl : done.getLast? with _ | ⟨opl, pt⟩
            · dsimp only
              refine step _ _ _ _ ?_ ?_
              · refine List.chain'_cons'.2 ⟨?_, hch⟩
                intro y _
                exact pairOK_eq_left rfl
              · intro x hx
                rcases done with _ | ⟨d0, ds⟩
                · rw [List.getLast?_singleton] at hx
                  simp only [Option.mem_def, Option.some.injEq] at hx
                  subst hx
                  rfl
                · rw [List.getLast?_cons_cons] at hx
                  exact hlast x hx
            · cases opl
              · exact absurd (hlast _ (by rw [hgl]; rfl)) (by simp)
              · exact absurd (hlast _ (by rw [hgl]; rfl)) (by simp)
              · dsimp only
                refine step _ _ _ _ ?_ ?_
                · rw [List.chain'_append]
                  refine ⟨chain'_dropLast hch,
                    List.chain'_singleton _, ?_⟩
                  intro x _ y hy
                  simp only [List.head?_cons, Option.mem_def,
                    Option.some.injEq] at hy
                  subst hy
                  exact pairOK_eq_right rfl
                · intro x hx
                  rw [List.getLast?_concat] at hx
                  simp only [Option.mem_def, Option.some.injEq] at hx
                  subst hx
                  rfl
          · rw [if_neg hpl]
            exact step done _ _ _ hch hlast
        · rw [if_neg h2]
          exact step done _ _ _ hch hlast
      · rw [if_neg h1]
        have hchDS : List.Chain' pairOK (done ++ seg) := by
          rw [List.chain'_append]
          refine ⟨hch, ?_, ?_⟩
          · have hslen : seg.length ≤ 1 := by omega
            rcases seg with _ | ⟨s0, srest⟩
            · exact List.chain'_nil
            · rcases srest with _ | ⟨s1, _⟩
              · exact List.chain'_singleton _
              · simp at hslen
          · intro x hx y _
            exact pairOK_eq_left (hlast x hx)
        rcases hgl : (done ++ seg).getLast? with _ | ⟨opl, pt⟩
        · dsimp only
          exact stepEq _ hchDS t
        · cases opl
          · dsimp only
            exact stepEq _ hchDS t
          · dsimp only
            exact stepEq _ hchDS t
          · dsimp only
            have hseg0 : seg = [] := by
              by_cases hs : seg = []
              · exact hs
              · exfalso
                rw [List.getLast?_append_of_ne_nil _ hs] at hgl
                exact hseg _ (mem_of_getLast?_eq hgl) rfl
            subst hseg0
            rw [List.append_nil]
            exact stepEq _
              (chain'_dropLast hch) _

/-- Popping the dummy entry keeps the adjacency discipline. -/
theorem mergeDropLastEmpty_alt (l : List Diff)
    (h : List.Chain' pairOK l) :
    List.Chain' pairOK (mergeDropLastEmpty l) := by
  unfold mergeDropLastEmpty
  rcases hgl : l.getLast? with _ | ⟨op, t⟩
  · exact h
  · rcases t with _ | ⟨c, ts⟩
    · exact chain'_dropLast h
    · exact h

/-- The `changes` flag of the shift pass is monotone: once set it stays
set. -/
theorem mergeP2_true : ∀ (n : Nat) (rest : List Diff), rest.length ≤ n →
    ∀ (acc : List Diff) (a b : Diff),
    (mergeP2 acc a b true rest).2 = true := by
  intro n
  induction n with
  | zero =>
    intro rest hr acc a b
    rcases rest with _ | ⟨c, rest'⟩
    · rfl
    · simp at hr
  | succ n ih =>
    intro rest hr acc a b
    rcases rest with _ | ⟨c, rest'⟩
    · rfl
    · unfold mergeP2
      split_ifs with hcond hshl hshr
      · rcases rest' with _ | ⟨d, rest''⟩
        · rfl
        · exact ih rest'' (by simp at hr; omega) _ _ _
      · rcases rest' with _ | ⟨d, rest''⟩
        · rfl
        · exact ih rest'' (by simp at hr; omega) _ _ _
      · exact ih rest' (by simp at hr; omega) _ _ _
      · exact ih rest' (by simp at hr; omega) _ _ _

/-- If the shift pass reports no changes, it did not modify the list. -/
theorem mergeP2_nochange : ∀ (n : Nat) (rest : List Diff),
    rest.length ≤ n → ∀ (acc : List Diff) (a b : Diff) (ch : Bool)
    (l' : List Diff), mergeP2 acc a b ch rest = (l', false) →
    l' = acc ++ a :: b :: rest := by
  intro n
  induction n with
  | zero =>
    intro rest hr acc a b ch l' h
    rcases rest with _ | ⟨c, rest'⟩
    · injection h with h1 _
      rw [← h1]
    · simp at hr
  | succ n ih =>
    intro rest hr acc a b ch l' h
    rcases rest with _ | ⟨c, rest'⟩
    · injection h with h1 _
      rw [← h1]
    · unfold mergeP2 at h
      split_ifs at h with hcond hshl hshr
      · rcases rest' with _ | ⟨d, rest''⟩
        · have hsnd := congrArg Prod.snd h
          simp at hsnd
        · have hsnd := congrArg Prod.snd h
          rw [mergeP2_true n rest'' (by simp at hr; omega)] at hsnd
          simp at hsnd
      · rcases rest' with _ | ⟨d, rest''⟩
        · have hsnd := congrArg Prod.snd h
          simp at hsnd
        · have hsnd := congrArg Prod.snd h
          rw [mergeP2_true n rest'' (by simp at hr; omega)] at hsnd
          simp at hsnd
      · have hrec := ih rest' (by simp at hr; omega) _ _ _ _ _ h
        rw [hrec, List.append_assoc]
        rfl
      · have hrec := ih rest' (by simp at hr; omega) _ _ _ _ _ h
        rw [hrec, List.append_assoc]
        rfl

theorem mergeP2Top_nochange (l l' : List Diff)
    (h : mergeP2Top l = (l', false)) : l' = l := by
  unfold mergeP2Top at h
  rcases l with _ | ⟨a, rest0⟩
  · injection h with h1 _
    exact h1.symm
  · rcases rest0 with _ | ⟨b, rest⟩
    · injection h with h1 _
      exact h1.symm
    · exact mergeP2_nochange rest.length rest (le_refl _) [] a b false l' h

/-- **C5** counterexample.  The claim asserts that after
`diff_cleanupMerge` no record is empty and no two adjacent records share
an operation; but a lone empty delete survives untouched, and a
delete/insert pair that cancels into the preceding equality leaves two
adjacent (nonempty) equalities behind. -/
theorem claim_C5_counterexample :
    diff_cleanupMerge 2 [(Op.del, [])] = some [(Op.del, [])] ∧
    diff_cleanupMerge 2
        [(Op.eq, [120]), (Op.del, [97]), (Op.ins, [97]), (Op.eq, [121])] =
      some [(Op.eq, [120, 97]), (Op.eq, [121])] :=
  ⟨by decide, by decide⟩

/-- **C5** (amended): whenever `diff_cleanupMerge` returns, no two
adjacent records are both deletions, no two are both insertions, and no
insertion is immediately followed by a deletion — between two equalities
there is at most one coalesced delete and one coalesced insert, in that
order.  (Empty records and adjacent equalities can, however, survive.) -/
theorem claim_C5 (fuel : Nat) (ds out : List Diff)
    (h : diff_cleanupMerge fuel ds = some out) :
    List.Chain' pairOK out := by
  induction fuel generalizing ds with
  | zero => cases h
  | succ fuel ih =>
    unfold diff_cleanupMerge at h
    dsimp only at h
    split_ifs at h with hch
    · exact ih _ h
    · rw [Bool.not_eq_true] at hch
      injection h with h
      have hl1 : List.Chain' pairOK (mergeDropLastEmpty
          (mergeP1 [] [] 0 0 [] [] (ds ++ [(Op.eq, [])]))) := by
        apply mergeDropLastEmpty_alt
        apply mergeP1_alt _ [] [] 0 0 [] [] List.chain'_nil
        · intro x hx
          cases hx
        · intro x hx
          cases hx
        · rfl
        · intro _
          exact ⟨[], by rw [List.getLast?_concat]⟩
        · intro _
          rfl
      have heq : mergeP2Top (mergeDropLastEmpty
          (mergeP1 [] [] 0 0 [] [] (ds ++ [(Op.eq, [])]))) =
          ((mergeP2Top (mergeDropLastEmpty
            (mergeP1 [] [] 0 0 [] [] (ds ++ [(Op.eq, [])])))).1, false) := by
        rw [← hch]
      have hno := mergeP2Top_nochange _ _ heq
      rw [← h, hno]
      exact hl1

/-- Concrete instance of the C5 adjacency discipline: merging two
deletions yields a single delete record. -/
theorem claim_C5_witness :
    List.Chain' pairOK [(Op.del, [97, 98])] :=
  claim_C5 1 [(Op.del, [97]), (Op.del, [98])] [(Op.del, [97, 98])]
    (by decide)

/-! ## Substring and search normalization lemmas -/

end DMPU

